import Mathlib

/-!
Verification of the funbuns data-lifecycle subsystem (run ingestion, block
compaction, catalog ordering, integrity auditing, truncation and resume).

The Python source (polars dataframes over parquet files) is shallowly embedded:
a dataframe is a `List Rec` of partition records; a block file is a name
(a list of characters, as produced by the Python f-strings) together with its
record content; a block directory is a `List BlockFile`.  Polars operations
are modelled as follows:
  - `df.sort("p")` is insertion sort by the `p` column (a deterministic
    refinement of the engine's unspecified intra-key order);
  - `df.unique(keys)` is `List.dedup` (records carry exactly the key columns
    after the `select`, so rows equal on the keys are equal rows, and which
    duplicate survives is immaterial);
  - `glob` listings are sorted by file name, lexicographically by code point,
    exactly as Python `sorted` over the names;
  - writing or renaming a file onto an existing path replaces that path.
All functions are executable; loops of the source become fuel-indexed
structural recursions with fuel provably sufficient at every call site.
-/

/-- A partition record: the four key columns `p, m_k, n_k, q_k` of the store
(the schema kept by `integrate_runs_into_blocks` after its `select`). -/
structure Rec where
  p : Nat
  m : Nat
  n : Nat
  q : Nat
deriving DecidableEq, Repr

/-- Ordering of records by the `p` column, as `df.sort("p")` uses. -/
def pLe (a b : Rec) : Prop := a.p ≤ b.p

instance : DecidableRel pLe := fun a b => Nat.decLe a.p b.p

instance : IsTotal Rec pLe := ⟨fun a b => Nat.le_total a.p b.p⟩

instance : IsTrans Rec pLe := ⟨fun _ _ _ h h2 => Nat.le_trans h h2⟩

/-- `df.sort("p")`. -/
def sortByP (l : List Rec) : List Rec := List.insertionSort pLe l

/-- `_dedup` / `df.unique(["p","m_k","n_k","q_k"])`: rows hold exactly the key
columns, so uniqueness by the composite key is uniqueness of rows. -/
def dedupKeys (l : List Rec) : List Rec := l.dedup

/-- The `p` column of a record list. -/
def pCol (l : List Rec) : List Nat := l.map Rec.p

/-- `df.select("p").unique().sort("p")`: distinct values sorted ascending. -/
def uniqueSorted (l : List Nat) : List Nat :=
  List.insertionSort (· ≤ ·) l.dedup

/-- `pl.col("p").n_unique()`. -/
def nUniqueP (l : List Rec) : Nat := (pCol l).dedup.length

theorem sortByP_perm (l : List Rec) : (sortByP l).Perm l :=
  List.perm_insertionSort pLe l

theorem sortByP_sorted (l : List Rec) : List.Sorted pLe (sortByP l) :=
  List.sorted_insertionSort pLe l

theorem dedupKeys_sublist (l : List Rec) : (dedupKeys l).Sublist l :=
  List.dedup_sublist l

theorem dedupKeys_nodup (l : List Rec) : (dedupKeys l).Nodup :=
  List.nodup_dedup l

theorem mem_dedupKeys {a : Rec} {l : List Rec} : a ∈ dedupKeys l ↔ a ∈ l :=
  List.mem_dedup

theorem uniqueSorted_perm (l : List Nat) : (uniqueSorted l).Perm l.dedup :=
  List.perm_insertionSort _ l.dedup

theorem uniqueSorted_nodup (l : List Nat) : (uniqueSorted l).Nodup :=
  ((uniqueSorted_perm l).nodup_iff).mpr (List.nodup_dedup l)

theorem uniqueSorted_sorted_le (l : List Nat) :
    List.Sorted (· ≤ ·) (uniqueSorted l) :=
  List.sorted_insertionSort _ l.dedup

theorem uniqueSorted_sorted_lt (l : List Nat) :
    List.Sorted (· < ·) (uniqueSorted l) :=
  (uniqueSorted_sorted_le l).lt_of_le (uniqueSorted_nodup l)

theorem mem_uniqueSorted {a : Nat} {l : List Nat} :
    a ∈ uniqueSorted l ↔ a ∈ l := by
  rw [(uniqueSorted_perm l).mem_iff, List.mem_dedup]

section DecimalNames

/-!
File names.  Python writes block files as `f"pp_b{num:03d}_p{max_p}.parquet"`.
We model names as lists of characters, with the decimal rendering of the
f-string implemented directly (most significant digit first, zero padded to
width 3 for the sequence-number field).
-/

/-- The decimal digit character for `d < 10`, as Python formats digits. -/
def digitChar : Nat → Char
  | 0 => '0' | 1 => '1' | 2 => '2' | 3 => '3' | 4 => '4'
  | 5 => '5' | 6 => '6' | 7 => '7' | 8 => '8' | _ + 9 => '9'

/-- Decimal rendering, fuel-indexed so it reduces definitionally; the fuel is
the number of digits still allowed. -/
def natDecimalAux : Nat → Nat → List Char
  | 0, _ => []
  | fuel + 1, n =>
    if n < 10 then [digitChar n]
    else natDecimalAux fuel (n / 10) ++ [digitChar (n % 10)]

/-- Decimal rendering of a natural number, as Python `str`/`%d`. -/
def natDecimal (n : Nat) : List Char := natDecimalAux (n + 1) n

/-- Zero padding to width 3, as the `:03d` format specifier. -/
def pad3 (s : List Char) : List Char :=
  if s.length < 3 then List.replicate (3 - s.length) '0' ++ s else s

/-- The block file name `pp_b{num:03d}_p{maxp}.parquet`. -/
def blockName (num maxp : Nat) : List Char :=
  ['p', 'p', '_', 'b'] ++ pad3 (natDecimal num) ++ ['_', 'p'] ++ natDecimal maxp
    ++ ['.', 'p', 'a', 'r', 'q', 'u', 'e', 't']

/-- Decimal parsing, used only to prove the rendering injective. -/
def parseDec (s : List Char) : Nat :=
  s.foldl (fun acc c => 10 * acc + (c.toNat - 48)) 0

theorem parseDec_append (s t : List Char) :
    parseDec (s ++ t) = t.foldl (fun acc c => 10 * acc + (c.toNat - 48)) (parseDec s) := by
  simp [parseDec, List.foldl_append]

theorem digitChar_toNat {d : Nat} (h : d < 10) : (digitChar d).toNat = 48 + d := by
  interval_cases d <;> decide

theorem natDecimalAux_parse {fuel n : Nat} (h : n < 10 ^ fuel) :
    parseDec (natDecimalAux fuel n) = n := by
  induction fuel generalizing n with
  | zero =>
    have hz : n = 0 := Nat.lt_one_iff.mp (by simpa using h)
    subst hz
    rfl
  | succ f ih =>
    by_cases hn : n < 10
    · simp [natDecimalAux, hn, parseDec, List.foldl, digitChar_toNat hn]
    · have hdiv : n / 10 < 10 ^ f := by
        rw [Nat.div_lt_iff_lt_mul (by norm_num)]
        calc n < 10 ^ (f + 1) := h
        _ = 10 ^ f * 10 := by ring
      simp only [natDecimalAux, hn, if_false]
      rw [parseDec_append, ih hdiv]
      simp [List.foldl, digitChar_toNat (Nat.mod_lt n (by norm_num))]
      omega

theorem natDecimal_parse (n : Nat) : parseDec (natDecimal n) = n := by
  have h1 : n < 10 ^ n := Nat.lt_pow_self (by norm_num) n
  have h2 : (10 : Nat) ^ n ≤ 10 ^ (n + 1) :=
    Nat.pow_le_pow_right (by norm_num) (Nat.le_succ n)
  exact natDecimalAux_parse (lt_of_lt_of_le h1 h2)

theorem pad3_parse (s : List Char) : parseDec (pad3 s) = parseDec s := by
  unfold pad3
  by_cases h : s.length < 3
  · simp only [h, if_true]
    rw [parseDec_append]
    have : parseDec (List.replicate (3 - s.length) '0') = 0 := by
      generalize 3 - s.length = k
      induction k with
      | zero => simp [parseDec]
      | succ m ih =>
        rw [List.replicate_succ]
        simpa [parseDec, List.foldl] using ih
    rw [this]
    rfl
  · simp [h]

/-- Every character of a rendered decimal is a digit. -/
theorem natDecimalAux_digits {fuel n : Nat} {c : Char}
    (h : c ∈ natDecimalAux fuel n) : 48 ≤ c.toNat ∧ c.toNat ≤ 57 := by
  induction fuel generalizing n with
  | zero => simp [natDecimalAux] at h
  | succ f ih =>
    by_cases hn : n < 10
    · simp [natDecimalAux, hn] at h
      subst h
      rw [digitChar_toNat hn]
      omega
    · simp only [natDecimalAux, hn, if_false, List.mem_append, List.mem_singleton] at h
      rcases h with h | h
      · exact ih h
      · subst h
        rw [digitChar_toNat (Nat.mod_lt n (by norm_num))]
        omega

theorem natDecimal_digits {n : Nat} {c : Char} (h : c ∈ natDecimal n) :
    48 ≤ c.toNat ∧ c.toNat ≤ 57 := natDecimalAux_digits h

theorem pad3_digits {s : List Char} {c : Char}
    (hs : ∀ d ∈ s, 48 ≤ d.toNat ∧ d.toNat ≤ 57) (h : c ∈ pad3 s) :
    48 ≤ c.toNat ∧ c.toNat ≤ 57 := by
  unfold pad3 at h
  by_cases hl : s.length < 3
  · simp only [hl, if_true, List.mem_append] at h
    rcases h with h | h
    · rw [List.eq_of_mem_replicate h]
      decide
    · exact hs c h
  · simp only [hl, if_false] at h
    exact hs c h

/-- Splitting a name at the first non-digit separator is unambiguous. -/
theorem digit_split {s1 s2 t1 t2 : List Char}
    (h1 : ∀ c ∈ s1, 48 ≤ c.toNat ∧ c.toNat ≤ 57)
    (h2 : ∀ c ∈ s2, 48 ≤ c.toNat ∧ c.toNat ≤ 57)
    (heq : s1 ++ '_' :: t1 = s2 ++ '_' :: t2) : s1 = s2 ∧ t1 = t2 := by
  induction s1 generalizing s2 with
  | nil =>
    cases s2 with
    | nil => simpa using heq
    | cons b bs =>
      simp only [List.nil_append, List.cons_append, List.cons.injEq] at heq
      have hb := h2 b (by simp)
      rw [← heq.1] at hb
      exact absurd hb.2 (by decide)
  | cons a as ih =>
    cases s2 with
    | nil =>
      simp only [List.nil_append, List.cons_append, List.cons.injEq] at heq
      have ha := h1 a (by simp)
      rw [heq.1] at ha
      exact absurd ha.2 (by decide)
    | cons b bs =>
      simp only [List.cons_append, List.cons.injEq] at heq
      obtain ⟨hab, hrest⟩ := heq
      obtain ⟨hs, ht⟩ := ih (fun c hc => h1 c (by simp [hc]))
        (fun c hc => h2 c (by simp [hc])) hrest
      exact ⟨by rw [hab, hs], ht⟩

/-- Block file names determine the sequence number and the max-prime field. -/
theorem blockName_inj {n1 m1 n2 m2 : Nat}
    (h : blockName n1 m1 = blockName n2 m2) : n1 = n2 ∧ m1 = m2 := by
  unfold blockName at h
  rw [List.append_assoc, List.append_assoc, List.append_assoc, List.append_assoc,
    List.append_assoc, List.append_assoc] at h
  have h0 := List.append_cancel_left h
  rw [← List.append_assoc, ← List.append_assoc, ← List.append_assoc,
    ← List.append_assoc] at h0
  have hsplit : pad3 (natDecimal n1) ++ '_' ::
      ('p' :: (natDecimal m1 ++ ['.', 'p', 'a', 'r', 'q', 'u', 'e', 't'])) =
      pad3 (natDecimal n2) ++ '_' ::
      ('p' :: (natDecimal m2 ++ ['.', 'p', 'a', 'r', 'q', 'u', 'e', 't'])) := by
    simpa using h0
  obtain ⟨hnum, hrest⟩ := digit_split
    (fun c hc => pad3_digits (fun d hd => natDecimal_digits hd) hc)
    (fun c hc => pad3_digits (fun d hd => natDecimal_digits hd) hc) hsplit
  constructor
  · have := congrArg parseDec hnum
    rwa [pad3_parse, pad3_parse, natDecimal_parse, natDecimal_parse] at this
  · simp only [List.cons.injEq, true_and] at hrest
    have hmax : natDecimal m1 = natDecimal m2 := List.append_cancel_right hrest
    have := congrArg parseDec hmax
    rwa [natDecimal_parse, natDecimal_parse] at this

end DecimalNames

/-- A block file: its name in the blocks directory and its record content. -/
structure BlockFile where
  name : List Char
  content : List Rec
deriving DecidableEq, Repr

/-- Lexicographic comparison of names by code point, as Python compares the
strings that `sorted` orders. -/
def lexLe : List Char → List Char → Bool
  | [], _ => true
  | _ :: _, [] => false
  | a :: as, b :: bs =>
    if a.toNat < b.toNat then true
    else if b.toNat < a.toNat then false
    else lexLe as bs

theorem lexLe_total (s t : List Char) : lexLe s t = true ∨ lexLe t s = true := by
  induction s generalizing t with
  | nil => left; rfl
  | cons a as ih =>
    cases t with
    | nil => right; rfl
    | cons b bs =>
      rcases Nat.lt_trichotomy a.toNat b.toNat with h | h | h
      · left; simp [lexLe, h]
      · rcases ih bs with h2 | h2
        · left; simp [lexLe, h, h2]
        · right; simp [lexLe, h.symm, h2]
      · right; simp [lexLe, h]

theorem lexLe_cons_iff {a b : Char} {as bs : List Char} :
    lexLe (a :: as) (b :: bs) = true ↔
      a.toNat < b.toNat ∨ (a.toNat = b.toNat ∧ lexLe as bs = true) := by
  rcases Nat.lt_trichotomy a.toNat b.toNat with h | h | h <;>
    simp [lexLe, h] <;> omega

theorem lexLe_trans {s t u : List Char} (h1 : lexLe s t = true)
    (h2 : lexLe t u = true) : lexLe s u = true := by
  induction s generalizing t u with
  | nil => rfl
  | cons a as ih =>
    cases t with
    | nil => simp [lexLe] at h1
    | cons b bs =>
      cases u with
      | nil => simp [lexLe] at h2
      | cons c cs =>
        rw [lexLe_cons_iff] at h1 h2 ⊢
        rcases h1 with h1 | ⟨h1e, h1r⟩ <;> rcases h2 with h2 | ⟨h2e, h2r⟩
        · exact Or.inl (h1.trans h2)
        · exact Or.inl (h2e ▸ h1)
        · exact Or.inl (h1e ▸ h2)
        · exact Or.inr ⟨h1e.trans h2e, ih h1r h2r⟩

/-- File-name ordering of blocks, as `sorted(bdir.glob(...))` in
`list_block_files`. -/
def nameLe (a b : BlockFile) : Prop := lexLe a.name b.name = true

instance : DecidableRel nameLe := fun a b => decEq (lexLe a.name b.name) true

instance : IsTotal BlockFile nameLe := ⟨fun a b => lexLe_total a.name b.name⟩

instance : IsTrans BlockFile nameLe := ⟨fun _ _ _ h h2 => lexLe_trans h h2⟩

/-- `list_block_files`: the directory listing sorted by file name. -/
def sortByName (dir : List BlockFile) : List BlockFile :=
  List.insertionSort nameLe dir

/-- Content-derived minimum prime of a block (`pl.col("p").min()`). -/
def minP (b : BlockFile) : Option Nat := (pCol b.content).min?

/-- Content-derived maximum prime of a block (`pl.col("p").max()`). -/
def maxP (b : BlockFile) : Option Nat := (pCol b.content).max?

/-- Content-derived unique prime count of a block. -/
def uniqP (b : BlockFile) : Nat := nUniqueP b.content

/-- `None` sorts as `float("inf")` in `sorted_blocks_by_data`; strict
comparison of the possibly-absent minima. -/
def infLt : Option Nat → Option Nat → Bool
  | none, _ => false
  | some _, none => true
  | some a, some b => a < b

/-- Non-strict comparison with `None` as infinity. -/
def infLe : Option Nat → Option Nat → Bool
  | _, none => true
  | none, some _ => false
  | some a, some b => a ≤ b

/-- The `(min_prime, max_prime)` sort key of `sorted_blocks_by_data`. -/
def dataLe (a b : BlockFile) : Prop :=
  (infLt (minP a) (minP b) || (minP a = minP b && infLe (maxP a) (maxP b))) = true

instance : DecidableRel dataLe := fun a b =>
  decEq (infLt (minP a) (minP b) || (minP a = minP b && infLe (maxP a) (maxP b))) true

theorem infLe_total (x y : Option Nat) : infLe x y = true ∨ infLe y x = true := by
  cases x <;> cases y <;> simp [infLe] <;> omega

theorem infLt_or (x y : Option Nat) :
    infLt x y = true ∨ x = y ∨ infLt y x = true := by
  cases x <;> cases y <;> simp [infLt] <;> omega

instance : IsTotal BlockFile dataLe := by
  refine ⟨fun a b => ?_⟩
  unfold dataLe
  rcases infLt_or (minP a) (minP b) with h | h | h
  · left; simp [h]
  · rcases infLe_total (maxP a) (maxP b) with h2 | h2
    · left; simp [h, h2]
    · right; simp [← h, h2]
  · right; simp [h]

theorem infLt_trans {x y z : Option Nat} (h1 : infLt x y = true)
    (h2 : infLt y z = true) : infLt x z = true := by
  cases x <;> cases y <;> cases z <;> simp [infLt] at * <;> omega

theorem infLe_trans {x y z : Option Nat} (h1 : infLe x y = true)
    (h2 : infLe y z = true) : infLe x z = true := by
  cases x <;> cases y <;> cases z <;> simp [infLe] at * <;> omega

instance : IsTrans BlockFile dataLe := by
  refine ⟨fun a b c h1 h2 => ?_⟩
  unfold dataLe at *
  simp only [Bool.or_eq_true, Bool.and_eq_true, decide_eq_true_eq] at h1 h2 ⊢
  rcases h1 with h1 | ⟨h1e, h1m⟩ <;> rcases h2 with h2 | ⟨h2e, h2m⟩
  · exact Or.inl (infLt_trans h1 h2)
  · rw [← h2e]; exact Or.inl h1
  · rw [h1e]; exact Or.inl h2
  · exact Or.inr ⟨h1e.trans h2e, infLe_trans h1m h2m⟩

/-- `sorted_blocks_by_data`: blocks sorted by content-derived
`(min_prime, max_prime)`. -/
def sortedByData (dir : List BlockFile) : List BlockFile :=
  List.insertionSort dataLe dir

/-- The `p` values of every row of every block in the directory. -/
def allPs (dir : List BlockFile) : List Nat :=
  (dir.map (fun b => pCol b.content)).flatten

/-- `_lazy_unique_sorted_primes`: the deduplicated, sorted view over all
blocks. -/
def blockView (dir : List BlockFile) : List Nat := uniqueSorted (allPs dir)

section PrimeOracle

/-!
The Canonical Prime Oracle (Sage `Primes.unrank` / `next_prime`), modelled
as executable functions: `unrank i` is the i-th prime (0-indexed), and
`next_prime p` the least prime strictly greater than `p`.
-/

/-- Executable primality test (trial division). -/
def isPrime (n : Nat) : Bool :=
  decide (2 ≤ n) && (List.range n).all (fun d => decide (d ≤ 1) || decide (n % d ≠ 0))

theorem isPrime_iff {n : Nat} : isPrime n = true ↔ Nat.Prime n := by
  rw [Nat.prime_def_lt]
  simp only [isPrime, Bool.and_eq_true, decide_eq_true_eq, List.all_eq_true,
    List.mem_range, Bool.or_eq_true]
  constructor
  · rintro ⟨h2, hall⟩
    refine ⟨h2, fun m hm hdvd => ?_⟩
    rcases hall m hm with h1 | hmod
    · interval_cases m
      · exact absurd (Nat.eq_zero_of_zero_dvd hdvd) (by omega)
      · rfl
    · obtain ⟨k, hk⟩ := hdvd
      exact absurd (by rw [hk]; exact Nat.mul_mod_right m k) hmod
  · rintro ⟨h2, hall⟩
    refine ⟨h2, fun d hd => ?_⟩
    by_cases hd1 : d ≤ 1
    · exact Or.inl hd1
    · refine Or.inr fun hmod => ?_
      have hdvd : d ∣ n := Nat.dvd_of_mod_eq_zero hmod
      exact absurd (hall d hd hdvd) (by omega)

/-- Linear scan for the next prime, fuel-indexed for definitional reduction. -/
def nextPrimeFuel : Nat → Nat → Nat
  | 0, c => c
  | fuel + 1, c => if isPrime c then c else nextPrimeFuel fuel (c + 1)

/-- Sage `next_prime(p)`: the least prime strictly greater than `p`.  The
fuel `p + 2` is sufficient by Bertrand's postulate. -/
def next_prime (p : Nat) : Nat := nextPrimeFuel (p + 2) (p + 1)

theorem nextPrimeFuel_spec {fuel c q : Nat} (hq : Nat.Prime q) (hcq : c ≤ q)
    (hlt : q < c + fuel) :
    Nat.Prime (nextPrimeFuel fuel c) ∧ c ≤ nextPrimeFuel fuel c ∧
      ∀ r, c ≤ r → r < nextPrimeFuel fuel c → ¬ Nat.Prime r := by
  induction fuel generalizing c with
  | zero => omega
  | succ f ih =>
    by_cases hc : isPrime c = true
    · simp only [nextPrimeFuel, hc, if_true]
      exact ⟨isPrime_iff.mp hc, le_refl c, fun r h1 h2 => absurd h1 (by omega)⟩
    · have hne : c ≠ q := fun h => hc (isPrime_iff.mpr (h ▸ hq))
      have hstep := @ih (c + 1) (by omega) (by omega)
      simp only [nextPrimeFuel, hc, Bool.false_eq_true, if_false]
      refine ⟨hstep.1, by omega, fun r h1 h2 => ?_⟩
      rcases Nat.eq_or_lt_of_le h1 with h | h
      · exact fun hr => hc (isPrime_iff.mpr (h ▸ hr))
      · exact hstep.2.2 r (by omega) h2

theorem next_prime_spec (p : Nat) :
    Nat.Prime (next_prime p) ∧ p < next_prime p ∧
      ∀ q, Nat.Prime q → p < q → next_prime p ≤ q := by
  have hex : ∃ q, Nat.Prime q ∧ p + 1 ≤ q ∧ q < p + 1 + (p + 2) := by
    rcases Nat.eq_zero_or_pos p with h | h
    · exact ⟨2, Nat.prime_two, by omega, by omega⟩
    · obtain ⟨q, hq, h1, h2⟩ := Nat.bertrand p (by omega)
      exact ⟨q, hq, by omega, by omega⟩
  obtain ⟨q, hq, h1, h2⟩ := hex
  obtain ⟨hp, hle, hmin⟩ := nextPrimeFuel_spec hq h1 h2
  unfold next_prime
  refine ⟨hp, by omega, fun r hr hpr => ?_⟩
  by_contra hlt2
  exact hmin r (by omega) (by omega) hr

theorem next_prime_prime (p : Nat) : Nat.Prime (next_prime p) :=
  (next_prime_spec p).1

theorem lt_next_prime (p : Nat) : p < next_prime p := (next_prime_spec p).2.1

theorem next_prime_le {p q : Nat} (hq : Nat.Prime q) (h : p < q) :
    next_prime p ≤ q := (next_prime_spec p).2.2 q hq h

/-- Sage `Primes.unrank(i)`: the i-th prime, 0-indexed. -/
def unrank : Nat → Nat
  | 0 => 2
  | i + 1 => next_prime (unrank i)

theorem unrank_prime (i : Nat) : Nat.Prime (unrank i) := by
  cases i with
  | zero => exact Nat.prime_two
  | succ j => exact next_prime_prime (unrank j)

theorem unrank_lt_succ (i : Nat) : unrank i < unrank (i + 1) :=
  lt_next_prime (unrank i)

theorem unrank_strictMono : StrictMono unrank :=
  strictMono_nat_of_lt_succ unrank_lt_succ

/-- Completeness: any prime above `unrank i` is at least `unrank (i + 1)`. -/
theorem unrank_succ_le {i q : Nat} (hq : Nat.Prime q) (h : unrank i < q) :
    unrank (i + 1) ≤ q := next_prime_le hq h

theorem unrank_zero_le {q : Nat} (hq : Nat.Prime q) : unrank 0 ≤ q :=
  hq.two_le

end PrimeOracle

section NatMinMax

theorem natMin?_eq_some_iff {a : Nat} {l : List Nat} :
    l.min? = some a ↔ a ∈ l ∧ ∀ b ∈ l, a ≤ b :=
  List.min?_eq_some_iff (fun _ => le_refl _) (fun x y => min_choice x y)
    (fun _ _ _ => le_min_iff)

theorem natMax?_eq_some_iff {a : Nat} {l : List Nat} :
    l.max? = some a ↔ a ∈ l ∧ ∀ b ∈ l, b ≤ a :=
  List.max?_eq_some_iff (fun _ => le_refl _) (fun x y => max_choice x y)
    (fun _ _ _ => max_le_iff)

theorem natMin?_isSome {l : List Nat} (h : l ≠ []) : ∃ a, l.min? = some a := by
  cases hm : l.min? with
  | none => exact absurd (List.min?_eq_none_iff.mp hm) h
  | some a => exact ⟨a, rfl⟩

theorem natMax?_isSome {l : List Nat} (h : l ≠ []) : ∃ a, l.max? = some a := by
  cases hm : l.max? with
  | none => exact absurd (List.max?_eq_none_iff.mp hm) h
  | some a => exact ⟨a, rfl⟩

end NatMinMax

section IngestModel

/-!
The Compactor: `integrate_runs_into_blocks` from `run_ingester.py`.

The while loop emitting new blocks becomes a fuel-indexed recursion
(`mkBlocksFuel`); fuel equal to the number of remaining unique primes is
sufficient whenever the target is positive, which the source requires anyway
(a zero target would make the Python loop fail on an empty slice).
Writing a parquet file to a path, and renaming a file onto a path, replace
whatever file is at that path, which `writeFile` models.
-/

/-- The row filter `(pl.col("p") >= min_p) & (pl.col("p") <= max_p)`. -/
def recInRange (lo hi : Nat) (r : Rec) : Bool :=
  decide (lo ≤ r.p) && decide (r.p ≤ hi)

/-- Rows of the working set falling in an inclusive prime range, deduplicated
by the composite key, as each block emission does. -/
def rangeRows (data : List Rec) (lo hi : Nat) : List Rec :=
  dedupKeys (data.filter (recInRange lo hi))

/-- The block-emission loop of `integrate_runs_into_blocks` (and, with cursor
0, of `rebuild_blocks_prefix`): repeatedly slice at most `target` unique
primes, select their rows, and write a block named with the next sequence
number and the slice's max prime. -/
def mkBlocksFuel (data : List Rec) (target : Nat) :
    Nat → Nat → List Nat → List BlockFile
  | 0, _, _ => []
  | fuel + 1, cursor, uniq =>
    if uniq.isEmpty then []
    else
      let slice := uniq.take target
      let minp := slice.min?.getD 0
      let maxp := slice.max?.getD 0
      ⟨blockName (cursor + 1) maxp, rangeRows data minp maxp⟩ ::
        mkBlocksFuel data target fuel (cursor + 1) (uniq.drop target)

/-- Block emission with sufficient fuel. -/
def mkBlocks (data : List Rec) (target cursor : Nat) (uniq : List Nat) :
    List BlockFile :=
  mkBlocksFuel data target uniq.length cursor uniq

/-- Writing (or renaming onto) a path replaces any file at that path. -/
def writeFile (dir : List BlockFile) (f : BlockFile) : List BlockFile :=
  dir.filter (fun b => decide (b.name ≠ f.name)) ++ [f]

/-- Sequential file writes. -/
def writeAll (dir : List BlockFile) (fs : List BlockFile) : List BlockFile :=
  fs.foldl writeFile dir

/-- Outcome of one ingestion pass: the directory afterwards, the rewritten
last block if one was absorbed, the newly created blocks, and the number of
unique primes consumed by the append-to-last-block step. -/
structure IngestOut where
  dirAfter : List BlockFile
  rewrote : Option BlockFile
  appended : List Rec
  fresh : List BlockFile
  consumed : Nat
deriving Repr

/-- The row groups emitted by the pass: the rows appended into the rewritten
last block, if any, followed by the rows of each newly created block. -/
def IngestOut.emissions (o : IngestOut) : List (List Rec) :=
  (match o.rewrote with
    | some _ => [o.appended]
    | none => []) ++ o.fresh.map BlockFile.content

/-- The blocks written by the pass. -/
def IngestOut.written (o : IngestOut) : List BlockFile :=
  match o.rewrote with
  | none => o.fresh
  | some b => b :: o.fresh

/-- `integrate_runs_into_blocks`: read and concatenate the run files, sort by
`p` and deduplicate by the composite key; if the file-name-last existing
block has spare unique-prime capacity, append the rows of the first primes
into it in place and rename it; emit the remaining primes as new blocks with
sequence numbers continuing from the count of existing block files. -/
def integrateOut (runs : List (List Rec)) (dir : List BlockFile)
    (target : Nat) : IngestOut :=
  let data0 := runs.flatten
  if data0.isEmpty then ⟨dir, none, [], [], 0⟩
  else
    let data := dedupKeys (sortByP data0)
    let existing := sortByName dir
    let uniq := uniqueSorted (pCol data)
    match existing.getLast? with
    | none => ⟨writeAll [] (mkBlocks data target 0 uniq), none, [],
        mkBlocks data target 0 uniq, 0⟩
    | some lb =>
      if uniqP lb < target then
        let k := min (target - uniqP lb) uniq.length
        if 0 < k then
          let ap := uniq.take k
          let minp := ap.min?.getD 0
          let maxp := ap.max?.getD 0
          let appendRows := rangeRows data minp maxp
          let combined := sortByP (lb.content ++ appendRows)
          let newLast : BlockFile := ⟨blockName existing.length maxp, combined⟩
          let nb := mkBlocks data target existing.length (uniq.drop k)
          ⟨writeAll existing.dropLast (newLast :: nb), some newLast,
            appendRows, nb, k⟩
        else
          let nb := mkBlocks data target existing.length uniq
          ⟨writeAll existing nb, none, [], nb, 0⟩
      else
        let nb := mkBlocks data target existing.length uniq
        ⟨writeAll existing nb, none, [], nb, 0⟩

/-- The block directory after an ingestion pass. -/
def integrate (runs : List (List Rec)) (dir : List BlockFile)
    (target : Nat) : List BlockFile :=
  (integrateOut runs dir target).dirAfter

/-- `rebuild_blocks_prefix`: union of all blocks and runs, deduplicated by
key and sorted by `p`, re-chunked from scratch with sequence numbers starting
at 1 into a cleared directory. -/
def rebuild_blocks (dir : List BlockFile) (runs : List (List Rec))
    (target : Nat) : List BlockFile :=
  let union := (dir.map BlockFile.content).flatten ++ runs.flatten
  let all_data := sortByP (dedupKeys union)
  mkBlocks all_data target 0 (uniqueSorted (pCol all_data))

end IngestModel

section ResumeModel

/-- The `p` column of the single lazy scan over all block files, which polars
reads in sorted-path order. -/
def catPs (dir : List BlockFile) : List Nat :=
  pCol (((sortByName dir).map BlockFile.content).flatten)

/-- `utils.resume_p(use_separate_runs=True)`: the `p` of the LAST row of the
scan together with the distinct-prime count, or `(2, 0)` when no block files
exist or the scan is empty. -/
def resume_p (dir : List BlockFile) : Nat × Nat :=
  if dir.isEmpty then (2, 0)
  else
    match (catPs dir).getLast? with
    | none => (2, 0)
    | some lp => (lp, (catPs dir).dedup.length)

/-- `block_catalog.compute_resume_from_blocks`: the MAXIMUM `p` over all
rows together with the distinct-prime count, or `(2, 0)` when no block files
exist.  (On block files with zero rows the source would fail converting a
null aggregate; that unreachable branch is mapped to `(0, 0)`.) -/
def compute_resume_from_blocks (dir : List BlockFile) : Nat × Nat :=
  if dir.isEmpty then (2, 0)
  else
    match (catPs dir).max? with
    | none => (0, 0)
    | some mp => (mp, (catPs dir).dedup.length)

end ResumeModel

section TruncateModel

/-- Outcome of `truncate_from_prime`: the return value (count of deleted
blocks), the directory afterwards, the reported deletion plan, and the files
copied into the backup directory. -/
structure TruncateOut where
  deleted : Nat
  dirAfter : List BlockFile
  plan : List BlockFile
  backedUp : List BlockFile
deriving Repr

/-- The selection predicate of `truncate_from_prime`: content-derived
`min_prime` present and at least the threshold. -/
def minAtLeast (start : Nat) (b : BlockFile) : Bool :=
  match minP b with
  | none => false
  | some m => decide (start ≤ m)

/-- `BlockManager.truncate_from_prime(start, yes, dry_run)`: select blocks
with `min_p >= start` from the content-ordered catalog; with no selection or
without confirmation, report the plan and change nothing; otherwise back the
selected blocks up and delete them. -/
def truncate_from_prime (dir : List BlockFile) (start : Nat)
    (yes dryRun : Bool) : TruncateOut :=
  let toDelete := (sortedByData dir).filter (minAtLeast start)
  if toDelete.isEmpty then ⟨0, dir, toDelete, []⟩
  else if dryRun || !yes then ⟨0, dir, toDelete, []⟩
  else ⟨toDelete.length, dir.filter (fun b => !(minAtLeast start b)),
    toDelete, toDelete⟩

end TruncateModel

section PrefixCheckModel

/-- Loop state of the `--prefix-check` pass (and of `audit_boundaries`):
running cumulative unique-prime count, last seen content max prime, and the
findings accumulated so far. -/
structure PrefixAcc where
  cum : Nat
  prevMax : Option Nat
  mismatches : List (List Char × Nat × Nat × Nat)
  gaps : List (Nat × Nat × Nat)
deriving Repr

/-- One iteration of the `--prefix-check` loop over a catalog entry: add the
block's unique-prime count to the cumulative count, flag a gap when the
block's `min_prime` differs from `next_prime` of the previous `max_prime`,
and flag a mismatch when `unrank(cumulative - 1)` differs from the block's
`max_prime`. -/
def prefixStep (acc : PrefixAcc) (b : BlockFile) : PrefixAcc :=
  let cum := acc.cum + uniqP b
  let expected : Option Nat := if 0 < cum then some (unrank (cum - 1)) else none
  let gaps :=
    match acc.prevMax, minP b with
    | some pm, some mn =>
      if mn ≠ next_prime pm then acc.gaps ++ [(pm, mn, next_prime pm)]
      else acc.gaps
    | _, _ => acc.gaps
  let prevMax := match maxP b with
    | some mx => some mx
    | none => acc.prevMax
  let mismatches :=
    match expected, maxP b with
    | some em, some mx =>
      if em ≠ mx then acc.mismatches ++ [(b.name, mx, em, cum)]
      else acc.mismatches
    | _, _ => acc.mismatches
  ⟨cum, prevMax, mismatches, gaps⟩

/-- The `--prefix-check` pass over the content-ordered catalog. -/
def prefixCheck (dir : List BlockFile) : PrefixAcc :=
  (sortedByData dir).foldl prefixStep ⟨0, none, [], []⟩

end PrefixCheckModel

section AuditModel

/-- Element of the lazily sorted deduplicated view at an index
(`_prime_at_index`). -/
def viewAt (dir : List BlockFile) (i : Nat) : Nat := (blockView dir).getD i 0

/-- The binary search of `audit_prefix_first_mismatch`, fuel-indexed; each
iteration strictly shrinks `hi - lo`, so fuel `total` is sufficient. -/
def bisectFuel (view : Nat → Nat) : Nat → Nat → Nat → Nat
  | 0, lo, _ => lo
  | fuel + 1, lo, hi =>
    if lo < hi then
      let mid := (lo + hi) / 2
      if view mid = unrank mid then bisectFuel view fuel (mid + 1) hi
      else bisectFuel view fuel lo mid
    else lo

/-- `BlockManager.audit_prefix_first_mismatch`: over the sorted deduplicated
view of all blocks' primes, check index 0, binary-search the first index
where the view disagrees with `unrank`, and verify the candidate. -/
def auditFirstMismatch (dir : List BlockFile) : Option (Nat × Nat × Nat) :=
  let total := (blockView dir).length
  if total = 0 then none
  else if viewAt dir 0 ≠ unrank 0 then some (0, viewAt dir 0, unrank 0)
  else
    let lo := bisectFuel (viewAt dir) total 0 (total - 1)
    if viewAt dir lo ≠ unrank lo then some (lo, viewAt dir lo, unrank lo)
    else none

/-- The smallest index in `[i, i + n)` satisfying the predicate.  Written
from the specification of the first-divergence audit, to compare the binary
search against a linear scan. -/
def firstIdxAux (p : Nat → Bool) : Nat → Nat → Option Nat
  | 0, _ => none
  | n + 1, i => if p i then some i else firstIdxAux p n (i + 1)

/-- Modelled from the spec: the smallest index `i` of the view with
`view[i] != unrank(i)`, found by direct scan, with the reported triple. -/
def specFirstDivergence (dir : List BlockFile) : Option (Nat × Nat × Nat) :=
  (firstIdxAux (fun i => decide (viewAt dir i ≠ unrank i))
      (blockView dir).length 0).map
    (fun i => (i, viewAt dir i, unrank i))

end AuditModel

section IntegrityModel

/-- `detect_duplicates_in_block`: row count minus unique-key count. -/
def dupRowsInBlock (b : BlockFile) : Nat :=
  b.content.length - (dedupKeys b.content).length

/-- The height of the inner join on `p` of two blocks' `p` columns, as
`detect_overlaps_between_blocks` computes for adjacent catalog entries. -/
def overlapCount (a b : BlockFile) : Nat :=
  ((pCol a.content).map (fun x => (pCol b.content).count x)).sum

/-- `detect_overlaps_between_blocks`: adjacent pairs of the content-ordered
catalog with a non-empty prime intersection. -/
def detectOverlaps (dir : List BlockFile) : List (List Char × List Char × Nat) :=
  let infos := sortedByData dir
  (infos.zip infos.tail).filterMap (fun pr =>
    if 0 < overlapCount pr.1 pr.2 then
      some (pr.1.name, pr.2.name, overlapCount pr.1 pr.2)
    else none)

/-- `quick_integrity_report`, structurally: the total duplicate-row count
across blocks and the overlap findings. -/
def quickIntegrity (dir : List BlockFile) : Nat × List (List Char × List Char × Nat) :=
  (((sortByName dir).map dupRowsInBlock).sum, detectOverlaps dir)

end IntegrityModel

section SortedListLemmas

/-- In a strictly sorted list, everything taken before index `k` is below
everything dropped from index `k`. -/
theorem sorted_take_lt_drop {l : List Nat} (h : List.Sorted (· < ·) l)
    (k : Nat) {a b : Nat} (ha : a ∈ l.take k) (hb : b ∈ l.drop k) : a < b := by
  have h2 : List.Pairwise (· < ·) (l.take k ++ l.drop k) := by
    rw [List.take_append_drop]; exact h
  exact (List.pairwise_append.mp h2).2.2 a ha b hb

/-- Nonempty lists of naturals have a minimum satisfying the usual bounds. -/
theorem minD_spec {l : List Nat} (h : l ≠ []) :
    l.min?.getD 0 ∈ l ∧ ∀ b ∈ l, l.min?.getD 0 ≤ b := by
  obtain ⟨a, ha⟩ := natMin?_isSome h
  rw [ha]
  exact natMin?_eq_some_iff.mp ha

/-- Nonempty lists of naturals have a maximum satisfying the usual bounds. -/
theorem maxD_spec {l : List Nat} (h : l ≠ []) :
    l.max?.getD 0 ∈ l ∧ ∀ b ∈ l, b ≤ l.max?.getD 0 := by
  obtain ⟨a, ha⟩ := natMax?_isSome h
  rw [ha]
  exact natMax?_eq_some_iff.mp ha

/-- For a strictly sorted list, membership in the first `k` elements is
exactly the min-max window of those elements. -/
theorem mem_take_iff_window {l : List Nat} (h : List.Sorted (· < ·) l)
    {k : Nat} (hk : l.take k ≠ []) {x : Nat} (hx : x ∈ l) :
    ((l.take k).min?.getD 0 ≤ x ∧ x ≤ (l.take k).max?.getD 0) ↔ x ∈ l.take k := by
  obtain ⟨hmnMem, hmnLe⟩ := minD_spec hk
  obtain ⟨hmxMem, hmxGe⟩ := maxD_spec hk
  constructor
  · rintro ⟨h1, h2⟩
    have hx2 : x ∈ l.take k ++ l.drop k := by
      rw [List.take_append_drop]; exact hx
    rcases List.mem_append.mp hx2 with hmem | hmem
    · exact hmem
    · exact absurd (sorted_take_lt_drop h k hmxMem hmem) (by omega)
  · intro hmem
    exact ⟨hmnLe x hmem, hmxGe x hmem⟩

/-- Two strictly sorted lists with the same members are equal. -/
theorem sorted_lt_ext {l1 l2 : List Nat} (h1 : List.Sorted (· < ·) l1)
    (h2 : List.Sorted (· < ·) l2) (hm : ∀ x, x ∈ l1 ↔ x ∈ l2) : l1 = l2 := by
  induction l1 generalizing l2 with
  | nil =>
    cases l2 with
    | nil => rfl
    | cons b bs => exact absurd ((hm b).mpr (by simp)) (by simp)
  | cons a as ih =>
    cases l2 with
    | nil => exact absurd ((hm a).mp (by simp)) (by simp)
    | cons b bs =>
      obtain ⟨ha2, has⟩ := List.sorted_cons.mp h1
      obtain ⟨hb2, hbs⟩ := List.sorted_cons.mp h2
      have hab : a = b := by
        rcases List.mem_cons.mp ((hm a).mp (by simp)) with h | h
        · exact h
        · rcases List.mem_cons.mp ((hm b).mpr (by simp)) with h3 | h3
          · omega
          · exact absurd (ha2 b h3) (by have := hb2 a h; omega)
      subst hab
      have hmt : ∀ x, x ∈ as ↔ x ∈ bs := by
        intro x
        constructor
        · intro hx
          rcases List.mem_cons.mp ((hm x).mp (by simp [hx])) with h | h
          · exact absurd (ha2 x hx) (by omega)
          · exact h
        · intro hx
          rcases List.mem_cons.mp ((hm x).mpr (by simp [hx])) with h | h
          · exact absurd (hb2 x hx) (by omega)
          · exact h
      rw [ih has hbs hmt]

/-- In a sorted list the last element dominates. -/
theorem sorted_le_getLast {l : List Nat} (h : List.Sorted (· ≤ ·) l)
    (hne : l ≠ []) : ∀ x ∈ l, x ≤ l.getLast hne := by
  induction l with
  | nil => simp at hne
  | cons a as ih =>
    intro x hx
    obtain ⟨ha, has⟩ := List.sorted_cons.mp h
    cases as with
    | nil => simp at hx; simp [hx, List.getLast]
    | cons b bs =>
      rw [List.getLast_cons (by simp)]
      rcases List.mem_cons.mp hx with h2 | h2
      · subst h2
        exact le_trans (ha b (by simp)) (ih has (by simp) b (by simp))
      · exact ih has (by simp) x h2

end SortedListLemmas

section MkBlocksLemmas

/-- The emission loop is insensitive to fuel once the fuel covers the number
of remaining unique primes (the target being positive, each pass consumes at
least one). -/
theorem mkBlocksFuel_congr {data : List Rec} {target : Nat} (ht : 0 < target) :
    ∀ f g uniq c, uniq.length ≤ f → uniq.length ≤ g →
      mkBlocksFuel data target f c uniq = mkBlocksFuel data target g c uniq := by
  intro f
  induction f with
  | zero =>
    intro g uniq c hf hg
    have huniq : uniq = [] := List.length_eq_zero.mp (by omega)
    subst huniq
    cases g with
    | zero => rfl
    | succ g2 => simp [mkBlocksFuel]
  | succ f2 ih =>
    intro g uniq c hf hg
    cases huniq : uniq with
    | nil =>
      cases g with
      | zero => simp [mkBlocksFuel]
      | succ g2 => simp [mkBlocksFuel]
    | cons u us =>
      cases g with
      | zero => subst huniq; simp at hg
      | succ g2 =>
        subst huniq
        simp only [mkBlocksFuel, List.isEmpty_cons, Bool.false_eq_true,
          if_false]
        have hlen : ((u :: us).drop target).length ≤ f2 := by
          simp only [List.length_drop, List.length_cons] at *
          omega
        have hlen2 : ((u :: us).drop target).length ≤ g2 := by
          simp only [List.length_drop, List.length_cons] at *
          omega
        rw [ih g2 ((u :: us).drop target) (c + 1) hlen hlen2]

theorem mkBlocks_nil {data : List Rec} {target c : Nat} :
    mkBlocks data target c [] = [] := rfl

/-- One-step unfolding of the emission loop. -/
theorem mkBlocks_cons {data : List Rec} {target c : Nat} {uniq : List Nat}
    (ht : 0 < target) (hne : uniq ≠ []) :
    mkBlocks data target c uniq =
      ⟨blockName (c + 1) ((uniq.take target).max?.getD 0),
          rangeRows data ((uniq.take target).min?.getD 0)
            ((uniq.take target).max?.getD 0)⟩ ::
        mkBlocks data target (c + 1) (uniq.drop target) := by
  unfold mkBlocks
  cases huniq : uniq with
  | nil => exact absurd huniq hne
  | cons u us =>
    simp only [List.length_cons, mkBlocksFuel, List.isEmpty_cons,
      Bool.false_eq_true, if_false]
    rw [mkBlocksFuel_congr ht us.length ((u :: us).drop target).length
      ((u :: us).drop target) (c + 1) (by simp [List.length_drop]; omega)
      (le_refl _)]

/-- Every emitted block holds a deduplicated range selection of the working
set. -/
theorem mkBlocks_mem {data : List Rec} {target c : Nat} {uniq : List Nat}
    {b : BlockFile} (hb : b ∈ mkBlocks data target c uniq) :
    ∃ mn mx, b.content = rangeRows data mn mx := by
  unfold mkBlocks at hb
  generalize hfuel : uniq.length = fuel at hb
  clear hfuel
  induction fuel generalizing c uniq with
  | zero => simp [mkBlocksFuel] at hb
  | succ f ih =>
    by_cases he : uniq.isEmpty
    · simp [mkBlocksFuel, he] at hb
    · simp only [mkBlocksFuel, he, Bool.false_eq_true, if_false,
        List.mem_cons] at hb
      rcases hb with hb | hb
      · exact ⟨_, _, by rw [hb]⟩
      · exact ih hb

/-- The j-th emitted block carries the j-th successive sequence number. -/
theorem mkBlocksFuel_name_at {data : List Rec} {target : Nat} :
    ∀ {fuel c uniq j b},
      (mkBlocksFuel data target fuel c uniq).get? j = some b →
      ∃ mp, b.name = blockName (c + j + 1) mp := by
  intro fuel
  induction fuel with
  | zero => intro c uniq j b hb; simp [mkBlocksFuel] at hb
  | succ f ih =>
    intro c uniq j b hb
    by_cases he : uniq.isEmpty
    · simp [mkBlocksFuel, he] at hb
    · simp only [mkBlocksFuel, he, Bool.false_eq_true, if_false] at hb
      cases j with
      | zero =>
        simp only [List.get?_cons_zero, Option.some.injEq] at hb
        exact ⟨_, by rw [← hb]⟩
      | succ j2 =>
        simp only [List.get?_cons_succ] at hb
        obtain ⟨mp, hmp⟩ := ih hb
        exact ⟨mp, by rw [hmp]; congr 1; omega⟩

/-- Names of emitted blocks embed sequence numbers strictly above the cursor. -/
theorem mkBlocksFuel_name_gt {data : List Rec} {target : Nat} :
    ∀ {fuel c uniq b}, b ∈ mkBlocksFuel data target fuel c uniq →
      ∃ i mp, c < i ∧ b.name = blockName i mp := by
  intro fuel
  induction fuel with
  | zero => intro c uniq b hb; simp [mkBlocksFuel] at hb
  | succ f ih =>
    intro c uniq b hb
    by_cases he : uniq.isEmpty
    · simp [mkBlocksFuel, he] at hb
    · simp only [mkBlocksFuel, he, Bool.false_eq_true, if_false,
        List.mem_cons] at hb
      rcases hb with hb | hb
      · exact ⟨c + 1, _, by omega, by rw [hb]⟩
      · obtain ⟨i, mp, hi, hmp⟩ := ih hb
        exact ⟨i, mp, by omega, hmp⟩

/-- Emitted block names are pairwise distinct. -/
theorem mkBlocksFuel_names_nodup {data : List Rec} {target : Nat} :
    ∀ {fuel c uniq},
      ((mkBlocksFuel data target fuel c uniq).map BlockFile.name).Nodup := by
  intro fuel
  induction fuel with
  | zero => intro c uniq; simp [mkBlocksFuel]
  | succ f ih =>
    intro c uniq
    by_cases he : uniq.isEmpty
    · simp [mkBlocksFuel, he]
    · simp only [mkBlocksFuel, he, Bool.false_eq_true, if_false,
        List.map_cons, List.nodup_cons]
      refine ⟨fun hmem => ?_, ih⟩
      obtain ⟨b, hb, hname⟩ := List.mem_map.mp hmem
      obtain ⟨i, mp, hi, hmp⟩ := mkBlocksFuel_name_gt hb
      rw [hmp] at hname
      have := (blockName_inj hname.symm).1
      omega

end MkBlocksLemmas

section WriteAllLemmas

theorem writeAll_nil (d : List BlockFile) : writeAll d [] = d := rfl

/-- When the written files have pairwise distinct names, sequential writes
drop the shadowed old files and append the new ones. -/
theorem writeAll_eq (d : List BlockFile) (fs : List BlockFile)
    (h : (fs.map BlockFile.name).Nodup) :
    writeAll d fs =
      d.filter (fun b => decide (b.name ∉ fs.map BlockFile.name)) ++ fs := by
  induction fs generalizing d with
  | nil => simp [writeAll]
  | cons f fs ih =>
    obtain ⟨hf, hfs⟩ := List.nodup_cons.mp h
    have step : writeAll d (f :: fs) = writeAll (writeFile d f) fs := rfl
    rw [step, ih (writeFile d f) hfs]
    unfold writeFile
    rw [List.filter_append, List.filter_filter]
    have hsingle : List.filter
        (fun b => decide (b.name ∉ fs.map BlockFile.name)) [f] = [f] := by
      simp [List.filter, hf]
    rw [hsingle]
    have hpred : ∀ b : BlockFile,
        (decide (b.name ∉ fs.map BlockFile.name) && decide (b.name ≠ f.name)) =
          decide (b.name ∉ (f :: fs).map BlockFile.name) := by
      intro b
      by_cases h1 : b.name = f.name <;> by_cases h2 : b.name ∈ fs.map BlockFile.name <;>
        simp [h1, h2]
    simp only [hpred]
    simp [List.append_assoc]

end WriteAllLemmas

section Examples

/-- A sentinel-shaped record for a given prime, used in concrete scenarios. -/
def mkRec (p : Nat) : Rec := ⟨p, 0, 0, 0⟩

/-- The primes up to 97 (content of block 1 in scenarios 4 and 5). -/
def primesTo97 : List Nat :=
  [2, 3, 5, 7, 11, 13, 17, 19, 23, 29, 31, 37, 41, 43, 47, 53, 59, 61, 67,
    71, 73, 79, 83, 89, 97]

/-- The primes from 101 to 199 (content of block 2 in scenarios 4 and 5). -/
def primes101to199 : List Nat :=
  [101, 103, 107, 109, 113, 127, 131, 137, 139, 149, 151, 157, 163, 167,
    173, 179, 181, 191, 193, 197, 199]

/-- Scenario block 1: covers primes 2..97. -/
def scenB1 : BlockFile := ⟨blockName 1 97, primesTo97.map mkRec⟩

/-- Scenario block 2: covers primes 101..199. -/
def scenB2 : BlockFile := ⟨blockName 2 199, primes101to199.map mkRec⟩

/-- The two-block store of scenarios 4 and 5. -/
def scenDir : List BlockFile := [scenB1, scenB2]

end Examples

section ClaimC3

/-- Claim C3, as stated: on the scenario block set,
`truncate_from_prime(150)` with confirmation deletes block 2.  False: the
operation deletes blocks whose content `min_prime` is at least the
threshold, and block 2 has `min_prime = 101 < 150`, so nothing is deleted
even with confirmation. -/
theorem c3_counterexample :
    (truncate_from_prime scenDir 150 true false).dirAfter = scenDir ∧
      (truncate_from_prime scenDir 150 true false).deleted = 0 ∧
      (truncate_from_prime scenDir 150 true false).backedUp = [] := by
  refine ⟨?_, ?_, ?_⟩ <;> rfl

/-- Claim C3 (corrected): `truncate_from_prime P` selects exactly the blocks
with content `min_prime >= P`.  Without confirmation (or in dry-run) it
reports that plan and modifies nothing; with confirmation it backs up and
deletes exactly the selected blocks.  On the scenario block set the
threshold 150 selects nothing; a threshold of 101 deletes block 2, leaving
only the primes 2..97. -/
theorem c3_truncate_behavior :
    (∀ dir start dryRun,
      (truncate_from_prime dir start false dryRun).dirAfter = dir ∧
      (truncate_from_prime dir start false dryRun).deleted = 0 ∧
      (truncate_from_prime dir start false dryRun).plan =
        (sortedByData dir).filter (minAtLeast start)) ∧
    (∀ dir start, (truncate_from_prime dir start true true).dirAfter = dir) ∧
    (∀ dir start,
      (truncate_from_prime dir start true false).dirAfter =
        dir.filter (fun b => !(minAtLeast start b)) ∧
      (truncate_from_prime dir start true false).plan =
        (sortedByData dir).filter (minAtLeast start) ∧
      (truncate_from_prime dir start true false).backedUp =
        (truncate_from_prime dir start true false).plan) ∧
    ((truncate_from_prime scenDir 101 true false).dirAfter = [scenB1] ∧
      (truncate_from_prime scenDir 101 true false).backedUp = [scenB2]) := by
  have hempty : ∀ dir start,
      ((sortedByData dir).filter (minAtLeast start)).isEmpty = true →
      dir.filter (fun b => !(minAtLeast start b)) = dir := by
    intro dir start he
    have hnil := List.isEmpty_iff.mp he
    have hall := List.filter_eq_nil.mp hnil
    refine List.filter_eq_self.mpr fun b hb => ?_
    have hmem : b ∈ sortedByData dir :=
      ((List.perm_insertionSort dataLe dir).mem_iff).mpr hb
    simp [hall b hmem]
  refine ⟨?_, ?_, ?_, ?_, ?_⟩
  · intro dir start dryRun
    unfold truncate_from_prime
    by_cases he : ((sortedByData dir).filter (minAtLeast start)).isEmpty <;>
      cases dryRun <;> simp [he]
  · intro dir start
    unfold truncate_from_prime
    by_cases he : ((sortedByData dir).filter (minAtLeast start)).isEmpty <;>
      simp [he]
  · intro dir start
    unfold truncate_from_prime
    by_cases he : ((sortedByData dir).filter (minAtLeast start)).isEmpty
    · have hall : ∀ a ∈ sortedByData dir, minAtLeast start a = false := by
        intro a ha
        have := List.filter_eq_nil.mp (List.isEmpty_iff.mp he) a ha
        simpa using this
      simp only [he, if_true, List.isEmpty_iff.mp he, eq_self_iff_true]
      exact ⟨(hempty dir start he).symm, rfl, rfl⟩
    · simp [he]
  · rfl
  · rfl

end ClaimC3

section ClaimC2

/-- A store whose file-name order disagrees with its content order: the
name-first block holds the larger primes. -/
def misDir : List BlockFile :=
  [⟨blockName 1 199, [mkRec 101, mkRec 103]⟩,
    ⟨blockName 2 97, [mkRec 2, mkRec 3]⟩]

/-- Claim C2, as stated: the resume point is the maximum prime over all rows
regardless of the order in which block files are scanned.  False:
`resume_p` takes the LAST row of the name-ordered scan, so on a store whose
name order disagrees with content order it returns 3 while the maximum
stored prime is 103. -/
theorem c2_counterexample :
    (resume_p misDir).1 = 3 ∧ 103 ∈ catPs misDir ∧
      ¬ (∀ x ∈ catPs misDir, x ≤ (resume_p misDir).1) := by
  refine ⟨rfl, by decide, by decide⟩

/-- Claim C2 (corrected): on an empty store both resume computations return
the canonical `(2, 0)`.  `compute_resume_from_blocks` does return the
maximum stored prime (with the distinct-prime count); `resume_p` returns
the last row of the name-ordered scan, which coincides with that maximum
whenever the concatenated scan is sorted by `p` (each block sorted and name
order matching content order). -/
theorem c2_resume_behavior :
    (∀ dir : List BlockFile, dir = [] →
      resume_p dir = (2, 0) ∧ compute_resume_from_blocks dir = (2, 0)) ∧
    (∀ dir : List BlockFile, catPs dir ≠ [] →
      ((compute_resume_from_blocks dir).1 ∈ catPs dir ∧
        ∀ x ∈ catPs dir, x ≤ (compute_resume_from_blocks dir).1) ∧
      (compute_resume_from_blocks dir).2 = (catPs dir).dedup.length) ∧
    (∀ dir : List BlockFile, catPs dir ≠ [] →
      List.Sorted (· ≤ ·) (catPs dir) →
      resume_p dir = compute_resume_from_blocks dir) := by
  have hne : ∀ dir : List BlockFile, catPs dir ≠ [] → dir.isEmpty = false := by
    intro dir h
    cases hd : dir with
    | nil => subst hd; exact absurd rfl h
    | cons b bs => rfl
  refine ⟨?_, ?_, ?_⟩
  · intro dir h
    subst h
    exact ⟨rfl, rfl⟩
  · intro dir h
    obtain ⟨mp, hmp⟩ := natMax?_isSome h
    obtain ⟨hmem, hub⟩ := natMax?_eq_some_iff.mp hmp
    unfold compute_resume_from_blocks
    rw [hne dir h, hmp]
    exact ⟨⟨hmem, hub⟩, rfl⟩
  · intro dir h hsorted
    obtain ⟨mp, hmp⟩ := natMax?_isSome h
    obtain ⟨hmem, hub⟩ := natMax?_eq_some_iff.mp hmp
    have hlast : (catPs dir).getLast? = some ((catPs dir).getLast h) :=
      List.getLast?_eq_getLast (catPs dir) h
    have hlmem : (catPs dir).getLast h ∈ catPs dir := List.getLast_mem h
    have heq : (catPs dir).getLast h = mp :=
      le_antisymm (hub _ hlmem) (sorted_le_getLast hsorted h mp hmem)
    unfold resume_p compute_resume_from_blocks
    rw [hne dir h, hlast, hmp, heq]

end ClaimC2

/-- A one-block store whose scan is sorted, for exercising the resume
theorems at a concrete input. -/
def alignedDir : List BlockFile := [⟨blockName 1 3, [mkRec 2, mkRec 3]⟩]

/-- Witness for C2: the corrected resume statement holds at a concrete
store and at the empty store, with every hypothesis checked by evaluation. -/
theorem c2_witness :
    resume_p alignedDir = compute_resume_from_blocks alignedDir ∧
      resume_p ([] : List BlockFile) = (2, 0) :=
  ⟨c2_resume_behavior.2.2 alignedDir (by decide) (by decide),
    (c2_resume_behavior.1 [] rfl).1⟩

section ClaimC8

/-- Two records sharing `(p, m, n)` but differing in `q`. -/
def divA : Rec := ⟨13, 2, 2, 3⟩

/-- The divergent partner of `divA`. -/
def divB : Rec := ⟨13, 2, 2, 5⟩

/-- A sentinel record for the same prime. -/
def divSentinel : Rec := ⟨13, 0, 0, 0⟩

/-- Claim C8 evaluated at its failing input: when the working set holds two
records sharing `(p, m, n)` with different `q` — or a sentinel next to a
non-sentinel for the same prime — the key-level dedup keeps both records,
ingestion stores both, and the integrity report returns zero duplicate rows
and no overlaps: no hard integrity error is raised anywhere. -/
theorem c8_divergent_payload_unflagged :
    dedupKeys (sortByP [divA, divB]) = [divA, divB] ∧
    (integrate [[divA, divB]] [] 5).map BlockFile.content = [[divA, divB]] ∧
    quickIntegrity (integrate [[divA, divB]] [] 5) = (0, []) ∧
    dedupKeys (sortByP [divSentinel, divA]) = [divSentinel, divA] ∧
    (integrate [[divSentinel, divA]] [] 5).map BlockFile.content =
      [[divSentinel, divA]] ∧
    quickIntegrity (integrate [[divSentinel, divA]] [] 5) = (0, []) := by
  decide

end ClaimC8

section ClaimC5

/-- The newly created blocks of a pass are always a chunk emission over the
sorted deduplicated working set. -/
theorem integrate_fresh_shape (runs : List (List Rec)) (dir : List BlockFile)
    (target : Nat) :
    ∃ c u, (integrateOut runs dir target).fresh =
      mkBlocks (dedupKeys (sortByP runs.flatten)) target c u := by
  unfold integrateOut
  by_cases h0 : runs.flatten.isEmpty
  · exact ⟨0, [], by simp [h0, mkBlocks_nil]⟩
  · simp only [h0, Bool.false_eq_true, if_false]
    cases hlast : (sortByName dir).getLast? with
    | none =>
      exact ⟨0, uniqueSorted (pCol (dedupKeys (sortByP runs.flatten))), rfl⟩
    | some lb =>
      by_cases h1 : uniqP lb < target
      · by_cases h2 : 0 < min (target - uniqP lb)
            (uniqueSorted (pCol (dedupKeys (sortByP runs.flatten)))).length
        · refine ⟨(sortByName dir).length,
            (uniqueSorted (pCol (dedupKeys (sortByP runs.flatten)))).drop
              (min (target - uniqP lb)
                (uniqueSorted (pCol (dedupKeys (sortByP runs.flatten)))).length),
            ?_⟩
          simp [h1, h2]
        · refine ⟨(sortByName dir).length,
            uniqueSorted (pCol (dedupKeys (sortByP runs.flatten))), ?_⟩
          simp [h1, h2]
      · refine ⟨(sortByName dir).length,
          uniqueSorted (pCol (dedupKeys (sortByP runs.flatten))), ?_⟩
        simp [h1]

/-- The rewritten last block, when there is one, is an explicit sort. -/
theorem integrate_rewrote_shape (runs : List (List Rec)) (dir : List BlockFile)
    (target : Nat) {cb : BlockFile}
    (h : (integrateOut runs dir target).rewrote = some cb) :
    ∃ l, cb.content = sortByP l := by
  unfold integrateOut at h
  by_cases h0 : runs.flatten.isEmpty
  · simp [h0] at h
  · simp only [h0, Bool.false_eq_true, if_false] at h
    cases hlast : (sortByName dir).getLast? with
    | none => rw [hlast] at h; simp at h
    | some lb =>
      rw [hlast] at h
      by_cases h1 : uniqP lb < target
      · by_cases h2 : 0 < min (target - uniqP lb)
            (uniqueSorted (pCol (dedupKeys (sortByP runs.flatten)))).length
        · simp only [h1, if_true, h2] at h
          have hcb := Option.some_inj.mp h
          exact ⟨_, by rw [← hcb]⟩
        · simp [h1, h2] at h
      · simp [h1] at h

/-- A deduplicated sorted working set stays sorted. -/
theorem dedup_sortByP_sorted (l : List Rec) :
    List.Sorted pLe (dedupKeys (sortByP l)) :=
  List.Pairwise.sublist (dedupKeys_sublist (sortByP l)) (sortByP_sorted l)

/-- Range selections of a sorted working set are sorted and key-distinct. -/
theorem rangeRows_sorted_nodup {data : List Rec}
    (h : List.Sorted pLe data) (lo hi : Nat) :
    List.Sorted pLe (rangeRows data lo hi) ∧ (rangeRows data lo hi).Nodup :=
  ⟨List.Pairwise.sublist (dedupKeys_sublist _) (List.Pairwise.filter _ h),
    dedupKeys_nodup _⟩

/-- Claim C5 (corrected): every newly created block — in ingestion and in
rebuild — is deduplicated by the composite key (its rows, which are exactly
the key columns, are pairwise distinct), and the rewritten last block is
sorted by `p`.  The remaining parts of the claim fail: deduplication of the
rewritten last block can fail (see the counterexample), and newly created
blocks carry no row-order guarantee, because the dedup step that writes them
(`unique` on the key columns, with no subsequent sort) leaves its output row
order unspecified. -/
theorem c5_blocks_sorted_dedup :
    (∀ runs dir target b, b ∈ (integrateOut runs dir target).fresh →
      b.content.Nodup) ∧
    (∀ runs dir target cb, (integrateOut runs dir target).rewrote = some cb →
      List.Sorted pLe cb.content) ∧
    (∀ dir runs target b, b ∈ rebuild_blocks dir runs target →
      b.content.Nodup) := by
  refine ⟨?_, ?_, ?_⟩
  · intro runs dir target b hb
    obtain ⟨c, u, hshape⟩ := integrate_fresh_shape runs dir target
    rw [hshape] at hb
    obtain ⟨mn, mx, hcontent⟩ := mkBlocks_mem hb
    rw [hcontent]
    exact (rangeRows_sorted_nodup (dedup_sortByP_sorted runs.flatten) mn mx).2
  · intro runs dir target cb hcb
    obtain ⟨l, hl⟩ := integrate_rewrote_shape runs dir target hcb
    rw [hl]
    exact sortByP_sorted l
  · intro dir runs target b hb
    unfold rebuild_blocks at hb
    obtain ⟨mn, mx, hcontent⟩ := mkBlocks_mem hb
    rw [hcontent]
    exact (rangeRows_sorted_nodup (sortByP_sorted _) mn mx).2

/-- Witness for C5: the key-distinctness statement evaluated on a concrete
ingestion (block `pp_b001_p2` emitted from runs `{2, 3}` at target 1) and on
a concrete rebuild, discharging the membership hypotheses by evaluation. -/
theorem c5_witness :
    ([mkRec 2] : List Rec).Nodup ∧ ([mkRec 7] : List Rec).Nodup :=
  ⟨c5_blocks_sorted_dedup.1 [[mkRec 3, mkRec 2]] [] 1
      ⟨blockName 1 2, [mkRec 2]⟩ (by decide),
    c5_blocks_sorted_dedup.2.2 [] [[mkRec 7]] 4
      ⟨blockName 1 7, [mkRec 7]⟩ (by decide)⟩

/-- A record present both in a run file and in the undersized last block. -/
def dupRec : Rec := ⟨5, 1, 1, 3⟩

/-- A one-block store already holding `dupRec`. -/
def dupDir : List BlockFile := [⟨blockName 1 5, [dupRec]⟩]

/-- Claim C5, as stated: every block produced by the Compactor, including
the rewritten last block, is deduplicated by the composite key.  False: when
a run record duplicates a record of the undersized last block, the rewrite
concatenates without deduplicating, leaving the same key twice in one
block. -/
theorem c5_counterexample :
    (integrateOut [[dupRec]] dupDir 5).rewrote =
      some ⟨blockName 1 5, [dupRec, dupRec]⟩ ∧
    ¬ ([dupRec, dupRec] : List Rec).Nodup := by
  decide

end ClaimC5

section ClaimC1CE

/-- The per-key row count across a whole block directory. -/
def totalCount (dir : List BlockFile) (r : Rec) : Nat :=
  (dir.map (fun b => b.content.count r)).sum

/-- A record duplicated between a run file and the existing last block. -/
def dupRec13 : Rec := ⟨13, 3, 1, 5⟩

/-- A one-block store already holding `dupRec13`. -/
def dupDir13 : List BlockFile := [⟨blockName 1 13, [dupRec13]⟩]

/-- Claim C1, as stated: a composite key duplicated between the run files
and the existing blocks ends with exactly one row after ingestion.  False:
re-ingesting a record already present in the undersized last block leaves
two rows for that key. -/
theorem c1_counterexample :
    2 ≤ ([[dupRec13]].flatten ++ (dupDir13.map BlockFile.content).flatten).count
        dupRec13 ∧
    totalCount (integrate [[dupRec13]] dupDir13 5) dupRec13 = 2 := by
  decide

end ClaimC1CE

section ClaimC10

/-- The newly created blocks of a pass form a chunk emission whose cursor is
the count of existing block files. -/
theorem integrate_fresh_cursor (runs : List (List Rec)) (dir : List BlockFile)
    (target : Nat) :
    ∃ u, (integrateOut runs dir target).fresh =
      mkBlocks (dedupKeys (sortByP runs.flatten)) target dir.length u := by
  have hlen : (sortByName dir).length = dir.length :=
    (List.perm_insertionSort nameLe dir).length_eq
  unfold integrateOut
  by_cases h0 : runs.flatten.isEmpty
  · exact ⟨[], by simp [h0, mkBlocks_nil]⟩
  · simp only [h0, Bool.false_eq_true, if_false]
    cases hlast : (sortByName dir).getLast? with
    | none =>
      have hsn : sortByName dir = [] := by
        cases hs : sortByName dir with
        | nil => rfl
        | cons x xs => rw [hs] at hlast; simp at hlast
      have hdl : dir.length = 0 := by rw [← hlen, hsn]; rfl
      rw [hdl]
      exact ⟨uniqueSorted (pCol (dedupKeys (sortByP runs.flatten))), rfl⟩
    | some lb =>
      rw [← hlen]
      by_cases h1 : uniqP lb < target
      · by_cases h2 : 0 < min (target - uniqP lb)
            (uniqueSorted (pCol (dedupKeys (sortByP runs.flatten)))).length
        · refine ⟨(uniqueSorted (pCol (dedupKeys (sortByP runs.flatten)))).drop
            (min (target - uniqP lb)
              (uniqueSorted (pCol (dedupKeys (sortByP runs.flatten)))).length),
            ?_⟩
          simp [h1, h2]
        · refine ⟨uniqueSorted (pCol (dedupKeys (sortByP runs.flatten))), ?_⟩
          simp [h1, h2]
      · refine ⟨uniqueSorted (pCol (dedupKeys (sortByP runs.flatten))), ?_⟩
        simp [h1]

/-- Claim C10 (confirmed): when the existing block files are numbered
exactly 1..N, the j-th newly created block of an ingestion pass is named
with sequence number N + j + 1 — the numbers N+1, N+2, ... in order — and
no newly created block's file path coincides with a pre-existing block's
path. -/
theorem c10_fresh_numbering (runs : List (List Rec)) (dir : List BlockFile)
    (target N : Nat) (hlen : dir.length = N)
    (hnames : ∀ b2 ∈ dir, ∃ i m, 1 ≤ i ∧ i ≤ N ∧ b2.name = blockName i m) :
    (∀ j b, ((integrateOut runs dir target).fresh).get? j = some b →
      ∃ mp, b.name = blockName (N + j + 1) mp) ∧
    (∀ b ∈ (integrateOut runs dir target).fresh, ∀ b2 ∈ dir,
      b.name ≠ b2.name) := by
  obtain ⟨u, hshape⟩ := integrate_fresh_cursor runs dir target
  rw [hshape, hlen]
  constructor
  · intro j b hb
    exact mkBlocksFuel_name_at hb
  · intro b hb b2 hb2 heq
    obtain ⟨i, mp, hi, hname⟩ := mkBlocksFuel_name_gt hb
    obtain ⟨i2, m2, hi2a, hi2b, hname2⟩ := hnames b2 hb2
    rw [hname, hname2] at heq
    have := (blockName_inj heq).1
    omega

/-- A one-block store numbered 1, for exercising the numbering theorem. -/
def numberedDir : List BlockFile := [⟨blockName 1 2, [mkRec 2]⟩]

/-- Witness for C10: ingesting runs `{3, 5}` at target 1 into a store whose
single block is numbered 1 creates blocks numbered 2 and 3, and the first
new block's path collides with no existing path. -/
theorem c10_witness :
    (∃ mp, (⟨blockName 2 3, [mkRec 3]⟩ : BlockFile).name =
      blockName (1 + 0 + 1) mp) ∧
    (⟨blockName 2 3, [mkRec 3]⟩ : BlockFile).name ≠
      (⟨blockName 1 2, [mkRec 2]⟩ : BlockFile).name := by
  have h := c10_fresh_numbering [[mkRec 3, mkRec 5]] numberedDir 1 1 rfl
    (by
      intro b2 hb2
      rcases List.mem_singleton.mp hb2 with rfl
      exact ⟨1, 2, le_refl 1, le_refl 1, rfl⟩)
  exact ⟨h.1 0 ⟨blockName 2 3, [mkRec 3]⟩ (by decide),
    h.2 ⟨blockName 2 3, [mkRec 3]⟩ (by decide)
      ⟨blockName 1 2, [mkRec 2]⟩ (by decide)⟩

end ClaimC10

section ChunkMachinery

/-- The chunk decomposition described by the spec: consecutive slices of at
most `target` primes, fuel-indexed like the emission loop itself. -/
def chunksOfFuel (target : Nat) : Nat → List Nat → List (List Nat)
  | 0, _ => []
  | fuel + 1, l =>
    if l.isEmpty then [] else l.take target :: chunksOfFuel target fuel (l.drop target)

/-- The chunk decomposition with sufficient fuel. -/
def chunksOf (target : Nat) (l : List Nat) : List (List Nat) :=
  chunksOfFuel target l.length l

/-- Membership of a record in a range selection. -/
theorem mem_rangeRows {data : List Rec} {lo hi : Nat} {r : Rec} :
    r ∈ rangeRows data lo hi ↔ r ∈ data ∧ lo ≤ r.p ∧ r.p ≤ hi := by
  unfold rangeRows
  rw [mem_dedupKeys, List.mem_filter]
  simp [recInRange]

/-- The primes of a range selection. -/
theorem mem_pCol_rangeRows {data : List Rec} {lo hi z : Nat} :
    z ∈ pCol (rangeRows data lo hi) ↔
      z ∈ pCol data ∧ lo ≤ z ∧ z ≤ hi := by
  unfold pCol
  simp only [List.mem_map]
  constructor
  · rintro ⟨r, hr, rfl⟩
    obtain ⟨hd, h1, h2⟩ := mem_rangeRows.mp hr
    exact ⟨⟨r, hd, rfl⟩, h1, h2⟩
  · rintro ⟨⟨r, hr, rfl⟩, h1, h2⟩
    exact ⟨r, mem_rangeRows.mpr ⟨hr, h1, h2⟩, rfl⟩

/-- A record whose prime is below every remaining unique prime appears in no
emitted block. -/
theorem mkBlocksFuel_count_zero {data : List Rec} {target : Nat} {r : Rec}
    (ht : 0 < target) :
    ∀ {fuel c uniq}, (∀ y ∈ uniq, r.p < y) →
      ((mkBlocksFuel data target fuel c uniq).map
        (fun b => b.content.count r)).sum = 0 := by
  intro fuel
  induction fuel with
  | zero => intro c uniq hlt; simp [mkBlocksFuel]
  | succ f ih =>
    intro c uniq hlt
    by_cases he : uniq.isEmpty
    · simp [mkBlocksFuel, he]
    · simp only [mkBlocksFuel, he, Bool.false_eq_true, if_false,
        List.map_cons, List.sum_cons]
      have hslice : uniq.take target ≠ [] := by
        cases hu : uniq with
        | nil => rw [hu] at he; simp at he
        | cons x xs =>
          cases target with
          | zero => omega
          | succ t => simp [hu]
      have hcount : (rangeRows data ((uniq.take target).min?.getD 0)
          ((uniq.take target).max?.getD 0)).count r = 0 := by
        rw [List.count_eq_zero]
        intro hmem
        obtain ⟨hd, h1, h2⟩ := mem_rangeRows.mp hmem
        have hmn := (minD_spec hslice).1
        have := hlt _ ((List.take_sublist target uniq).mem hmn)
        omega
      rw [hcount, ih (fun y hy => hlt y ((List.drop_sublist target uniq).mem hy))]

/-- A record whose prime is among the remaining unique primes appears in
exactly one emitted block (counted with row multiplicity). -/
theorem mkBlocksFuel_count_one {data : List Rec} {target : Nat} {r : Rec}
    (ht : 0 < target) (hr : r ∈ data) :
    ∀ {fuel c uniq}, List.Sorted (· < ·) uniq → uniq.length ≤ fuel →
      r.p ∈ uniq →
      ((mkBlocksFuel data target fuel c uniq).map
        (fun b => b.content.count r)).sum = 1 := by
  intro fuel
  induction fuel with
  | zero =>
    intro c uniq hs hfuel hmem
    have : uniq = [] := List.length_eq_zero.mp (by omega)
    subst this
    simp at hmem
  | succ f ih =>
    intro c uniq hs hfuel hmem
    have he : uniq.isEmpty = false := by
      cases hu : uniq with
      | nil => subst hu; simp at hmem
      | cons x xs => rfl
    simp only [mkBlocksFuel, he, Bool.false_eq_true, if_false,
      List.map_cons, List.sum_cons]
    have hslice : uniq.take target ≠ [] := by
      cases hu : uniq with
      | nil => subst hu; simp at hmem
      | cons x xs =>
        cases target with
        | zero => omega
        | succ t => simp [hu]
    by_cases hin : r.p ∈ uniq.take target
    · have hcount : (rangeRows data ((uniq.take target).min?.getD 0)
          ((uniq.take target).max?.getD 0)).count r = 1 := by
        refine List.count_eq_one_of_mem (dedupKeys_nodup _) ?_
        exact mem_rangeRows.mpr
          ⟨hr, (minD_spec hslice).2 _ hin, (maxD_spec hslice).2 _ hin⟩
      rw [hcount,
        mkBlocksFuel_count_zero ht (fun y hy => sorted_take_lt_drop hs target hin hy)]
    · have hdrop : r.p ∈ uniq.drop target := by
        have h2 : r.p ∈ uniq.take target ++ uniq.drop target := by
          rw [List.take_append_drop]; exact hmem
        rcases List.mem_append.mp h2 with h3 | h3
        · exact absurd h3 hin
        · exact h3
      have hcount : (rangeRows data ((uniq.take target).min?.getD 0)
          ((uniq.take target).max?.getD 0)).count r = 0 := by
        rw [List.count_eq_zero]
        intro hmem2
        obtain ⟨hd, h1, h2⟩ := mem_rangeRows.mp hmem2
        exact hin ((mem_take_iff_window hs hslice hmem).mp ⟨h1, h2⟩)
      rw [hcount,
        ih (List.Pairwise.sublist (List.drop_sublist target uniq) hs)
          (by rw [List.length_drop]; omega) hdrop]

end ChunkMachinery

section ClaimC1

theorem totalCount_append (d1 d2 : List BlockFile) (r : Rec) :
    totalCount (d1 ++ d2) r = totalCount d1 r + totalCount d2 r := by
  simp [totalCount]

theorem totalCount_eq_zero {d : List BlockFile} {r : Rec}
    (h : ∀ b ∈ d, r ∉ b.content) : totalCount d r = 0 := by
  refine List.sum_eq_zero fun x hx => ?_
  obtain ⟨b, hb, rfl⟩ := List.mem_map.mp hx
  exact List.count_eq_zero.mpr (h b hb)

/-- The written blocks of the absorb branch have pairwise distinct names:
the rewritten block carries the current file count as its number, the new
blocks strictly larger numbers. -/
theorem written_names_nodup (data : List Rec) (target L mx : Nat)
    (combined : List Rec) (u : List Nat) :
    ((⟨blockName L mx, combined⟩ :: mkBlocks data target L u :
        List BlockFile).map BlockFile.name).Nodup := by
  rw [List.map_cons, List.nodup_cons]
  constructor
  · intro hmem
    obtain ⟨b, hb, hname⟩ := List.mem_map.mp hmem
    obtain ⟨i, mp, hi, hmp⟩ := mkBlocksFuel_name_gt hb
    rw [hmp] at hname
    have := (blockName_inj hname).1
    omega
  · exact mkBlocksFuel_names_nodup

theorem mkBlocks_names_nodup {data : List Rec} {target c : Nat}
    {u : List Nat} :
    ((mkBlocks data target c u).map BlockFile.name).Nodup :=
  mkBlocksFuel_names_nodup

theorem mkBlocks_count_zero {data : List Rec} {target c : Nat}
    {u : List Nat} {r : Rec} (ht : 0 < target) (hlt : ∀ y ∈ u, r.p < y) :
    ((mkBlocks data target c u).map (fun b => b.content.count r)).sum = 0 :=
  mkBlocksFuel_count_zero ht hlt

theorem mkBlocks_count_one {data : List Rec} {target c : Nat} {u : List Nat}
    {r : Rec} (ht : 0 < target) (hr : r ∈ data)
    (hs : List.Sorted (· < ·) u) (hmem : r.p ∈ u) :
    ((mkBlocks data target c u).map (fun b => b.content.count r)).sum = 1 :=
  mkBlocksFuel_count_one ht hr hs (le_refl _) hmem

/-- Claim C1 (corrected): a composite key occurring (even repeatedly) in the
run files, and not already stored in any existing block, ends with exactly
one row across the block set after ingestion. -/
theorem c1_dedup_within_runs (runs : List (List Rec)) (dir : List BlockFile)
    (target : Nat) (r : Rec) (ht : 0 < target)
    (hdup : 2 ≤ runs.flatten.count r)
    (hfree : ∀ b ∈ dir, r ∉ b.content) :
    totalCount (integrate runs dir target) r = 1 := by
  have hmem0 : r ∈ runs.flatten := by
    rw [← List.count_pos_iff]
    omega
  have hdne : runs.flatten.isEmpty = false := by
    cases hf : runs.flatten with
    | nil => rw [hf] at hmem0; simp at hmem0
    | cons x xs => rfl
  have hrdata : r ∈ dedupKeys (sortByP runs.flatten) :=
    mem_dedupKeys.mpr (((sortByP_perm runs.flatten).mem_iff).mpr hmem0)
  have hpuniq : r.p ∈ uniqueSorted (pCol (dedupKeys (sortByP runs.flatten))) :=
    mem_uniqueSorted.mpr (List.mem_map.mpr ⟨r, hrdata, rfl⟩)
  have hsu := uniqueSorted_sorted_lt (pCol (dedupKeys (sortByP runs.flatten)))
  have hfree2 : ∀ b ∈ sortByName dir, r ∉ b.content := fun b hb =>
    hfree b (((List.perm_insertionSort nameLe dir).mem_iff).mp hb)
  unfold integrate integrateOut
  simp only [hdne, Bool.false_eq_true, if_false]
  cases hlast : (sortByName dir).getLast? with
  | none =>
    dsimp only
    rw [writeAll_eq _ _ mkBlocks_names_nodup]
    simp only [List.filter_nil, List.nil_append]
    exact mkBlocksFuel_count_one ht hrdata hsu (le_refl _) hpuniq
  | some lb =>
    dsimp only
    have hlbmem : lb ∈ sortByName dir := by
      obtain ⟨ys, hys⟩ := List.getLast?_eq_some_iff.mp hlast
      rw [hys]
      simp
    have hlbzero : lb.content.count r = 0 :=
      List.count_eq_zero.mpr (hfree2 lb hlbmem)
    by_cases h1 : uniqP lb < target
    · by_cases h2 : 0 < min (target - uniqP lb)
          (uniqueSorted (pCol (dedupKeys (sortByP runs.flatten)))).length
      · simp only [h1, if_true, h2]
        rw [writeAll_eq _ _ (written_names_nodup _ _ _ _ _ _)]
        rw [totalCount_append]
        have hzero1 : ∀ pb : BlockFile → Bool,
            totalCount ((sortByName dir).dropLast.filter pb) r = 0 := fun pb =>
          totalCount_eq_zero fun b hb =>
            hfree2 b (List.Sublist.mem (List.mem_of_mem_filter hb)
              (List.dropLast_sublist (sortByName dir)))
        rw [hzero1 _]
        simp only [totalCount, List.map_cons, List.sum_cons]
        have hkpos := h2
        set k := min (target - uniqP lb)
          (uniqueSorted (pCol (dedupKeys (sortByP runs.flatten)))).length with hk
        set uniq := uniqueSorted (pCol (dedupKeys (sortByP runs.flatten)))
          with huq
        have hap : uniq.take k ≠ [] := by
          cases hu : uniq with
          | nil => rw [hu] at hpuniq; simp at hpuniq
          | cons x xs =>
            cases hk2 : k with
            | zero => omega
            | succ k2 => simp [hu]
        have hcomb : (sortByP (lb.content ++ rangeRows
            (dedupKeys (sortByP runs.flatten)) ((uniq.take k).min?.getD 0)
            ((uniq.take k).max?.getD 0))).count r =
            (rangeRows (dedupKeys (sortByP runs.flatten))
              ((uniq.take k).min?.getD 0) ((uniq.take k).max?.getD 0)).count r := by
          rw [(sortByP_perm _).count_eq, List.count_append, hlbzero]
          omega
        have hsplit : r.p ∈ uniq.take k ∨ r.p ∈ uniq.drop k := by
          have h3 : r.p ∈ uniq.take k ++ uniq.drop k := by
            rw [List.take_append_drop]; exact hpuniq
          exact List.mem_append.mp h3
        rcases hsplit with hin | hin
        · have hcA : (rangeRows (dedupKeys (sortByP runs.flatten))
              ((uniq.take k).min?.getD 0) ((uniq.take k).max?.getD 0)).count r = 1 :=
            List.count_eq_one_of_mem (dedupKeys_nodup _)
              (mem_rangeRows.mpr
                ⟨hrdata, (minD_spec hap).2 _ hin, (maxD_spec hap).2 _ hin⟩)
          have hcB := @mkBlocks_count_zero (dedupKeys (sortByP runs.flatten))
            target (sortByName dir).length (uniq.drop k) r ht
            (fun y hy => sorted_take_lt_drop hsu k hin hy)
          rw [hcomb, hcA, hcB]
        · have hcA : (rangeRows (dedupKeys (sortByP runs.flatten))
              ((uniq.take k).min?.getD 0) ((uniq.take k).max?.getD 0)).count r = 0 := by
            rw [List.count_eq_zero]
            intro hmem2
            obtain ⟨hd, h3, h4⟩ := mem_rangeRows.mp hmem2
            have htake := (mem_take_iff_window hsu hap hpuniq).mp ⟨h3, h4⟩
            exact absurd (sorted_take_lt_drop hsu k htake hin) (by omega)
          have hcB := @mkBlocks_count_one (dedupKeys (sortByP runs.flatten))
            target (sortByName dir).length (uniq.drop k) r ht hrdata
            (List.Pairwise.sublist (List.drop_sublist k uniq) hsu) hin
          rw [hcomb, hcA, hcB]
      · exfalso
        have hlpos : 0 < (uniqueSorted (pCol (dedupKeys
            (sortByP runs.flatten)))).length := List.length_pos_of_mem hpuniq
        exact h2 (lt_min_iff.mpr ⟨by omega, hlpos⟩)
    · simp only [h1, Bool.false_eq_true, if_false]
      rw [writeAll_eq _ _ mkBlocks_names_nodup, totalCount_append]
      have hzero1 : ∀ pb : BlockFile → Bool,
          totalCount ((sortByName dir).filter pb) r = 0 := fun pb =>
        totalCount_eq_zero fun b hb => hfree2 b (List.mem_of_mem_filter hb)
      rw [hzero1 _]
      simp only [totalCount]
      rw [@mkBlocks_count_one (dedupKeys (sortByP runs.flatten))
        target (sortByName dir).length
        (uniqueSorted (pCol (dedupKeys (sortByP runs.flatten)))) r ht hrdata
        hsu hpuniq]

/-- Witness for C1: ingesting a run set holding the same record twice into
an empty store yields exactly one row for that key. -/
theorem c1_witness :
    totalCount (integrate [[mkRec 7], [mkRec 7]] [] 3) (mkRec 7) = 1 :=
  c1_dedup_within_runs [[mkRec 7], [mkRec 7]] [] 3 (mkRec 7) (by decide)
    (by decide) (by intro b hb; simp at hb)

end ClaimC1

section ClaimC9Machinery

theorem chunksOfFuel_flatten {t : Nat} (ht : 0 < t) :
    ∀ fuel l, l.length ≤ fuel → (chunksOfFuel t fuel l).flatten = l := by
  intro fuel
  induction fuel with
  | zero =>
    intro l hl
    have : l = [] := List.length_eq_zero.mp (by omega)
    subst this
    rfl
  | succ f ih =>
    intro l hl
    by_cases he : l.isEmpty
    · rw [List.isEmpty_iff.mp he]
      rfl
    · simp only [chunksOfFuel, he, Bool.false_eq_true, if_false,
        List.flatten_cons]
      have hlen : (l.drop t).length ≤ f := by
        rw [List.length_drop]
        have : l ≠ [] := fun h2 => by rw [h2] at he; simp at he
        have : 0 < l.length := List.length_pos.mpr this
        omega
      rw [ih (l.drop t) hlen, List.take_append_drop]

theorem chunksOfFuel_mem {t : Nat} (ht : 0 < t) :
    ∀ {fuel l ch}, ch ∈ chunksOfFuel t fuel l → ch ≠ [] ∧ ch.length ≤ t := by
  intro fuel
  induction fuel with
  | zero => intro l ch hch; simp [chunksOfFuel] at hch
  | succ f ih =>
    intro l ch hch
    by_cases he : l.isEmpty
    · simp [chunksOfFuel, he] at hch
    · simp only [chunksOfFuel, he, Bool.false_eq_true, if_false,
        List.mem_cons] at hch
      rcases hch with hch | hch
      · subst hch
        constructor
        · cases hl : l with
          | nil => rw [hl] at he; simp at he
          | cons x xs =>
            cases t with
            | zero => omega
            | succ t2 => simp
        · rw [List.length_take]
          omega
      · exact ih hch

/-- The prime sets of the emitted blocks are exactly the consecutive chunks
of the remaining unique primes. -/
theorem mkBlocksFuel_chunks {data : List Rec} {t : Nat} (ht : 0 < t) :
    ∀ {fuel c u}, u.length ≤ fuel → List.Sorted (· < ·) u →
      (∀ x ∈ u, x ∈ pCol data) →
      (∀ x ∈ pCol data, x ∉ u → ∀ y ∈ u, x < y) →
      (mkBlocksFuel data t fuel c u).map
          (fun b => uniqueSorted (pCol b.content)) =
        chunksOfFuel t fuel u := by
  intro fuel
  induction fuel with
  | zero => intro c u hl hs hcar hlow; rfl
  | succ f ih =>
    intro c u hl hs hcar hlow
    by_cases he : u.isEmpty
    · simp [mkBlocksFuel, chunksOfFuel, he]
    · simp only [mkBlocksFuel, chunksOfFuel, he, Bool.false_eq_true, if_false,
        List.map_cons]
      have hune : u ≠ [] := fun h2 => by rw [h2] at he; simp at he
      have hslice : u.take t ≠ [] := by
        cases hu : u with
        | nil => exact absurd hu hune
        | cons x xs =>
          cases t with
          | zero => omega
          | succ t2 => simp [hu]
      have hhead : uniqueSorted (pCol (rangeRows data ((u.take t).min?.getD 0)
          ((u.take t).max?.getD 0))) = u.take t := by
        refine sorted_lt_ext (uniqueSorted_sorted_lt _)
          (List.Pairwise.sublist (List.take_sublist t u) hs) fun z => ?_
        rw [mem_uniqueSorted, mem_pCol_rangeRows]
        constructor
        · rintro ⟨hzdata, h1, h2⟩
          by_cases hzu : z ∈ u
          · exact (mem_take_iff_window hs hslice hzu).mp ⟨h1, h2⟩
          · have := hlow z hzdata hzu _
              ((List.take_sublist t u).mem (minD_spec hslice).1)
            omega
        · intro hz
          exact ⟨hcar z ((List.take_sublist t u).mem hz),
            (minD_spec hslice).2 z hz, (maxD_spec hslice).2 z hz⟩
      rw [hhead,
        ih (by rw [List.length_drop]; have := List.length_pos.mpr hune; omega)
          (List.Pairwise.sublist (List.drop_sublist t u) hs)
          (fun x hx => hcar x ((List.drop_sublist t u).mem hx))
          (fun x hx hnx y hy => ?_)]
      by_cases hxu : x ∈ u
      · have hxsplit : x ∈ u.take t ++ u.drop t := by
          rw [List.take_append_drop]; exact hxu
        rcases List.mem_append.mp hxsplit with h3 | h3
        · exact sorted_take_lt_drop hs t h3 hy
        · exact absurd h3 hnx
      · exact hlow x hx hxu y ((List.drop_sublist t u).mem hy)

/-- A range selection that holds one record of a prime holds every
working-set record of that prime. -/
theorem rangeRows_captures {data : List Rec} {mn mx pp : Nat}
    (hx : ∃ r ∈ data, r.p = pp ∧ r ∈ rangeRows data mn mx) :
    ∀ r2 ∈ data, r2.p = pp → r2 ∈ rangeRows data mn mx := by
  obtain ⟨r, hr, hrp, hrin⟩ := hx
  obtain ⟨_, h1, h2⟩ := mem_rangeRows.mp hrin
  intro r2 hr2 hp2
  exact mem_rangeRows.mpr ⟨hr2, by omega, by omega⟩

/-- No emitted block holds a record of a prime below every remaining unique
prime. -/
theorem mkBlocksFuel_hasP_zero {data : List Rec} {t pp : Nat} (ht : 0 < t) :
    ∀ {fuel c u}, (∀ y ∈ u, pp < y) →
      (mkBlocksFuel data t fuel c u).countP
        (fun b => decide (∃ r ∈ data, r.p = pp ∧ r ∈ b.content)) = 0 := by
  intro fuel
  induction fuel with
  | zero => intro c u hlt; rfl
  | succ f ih =>
    intro c u hlt
    by_cases he : u.isEmpty
    · simp [mkBlocksFuel, he]
    · simp only [mkBlocksFuel, he, Bool.false_eq_true, if_false,
        List.countP_cons]
      have hune : u ≠ [] := fun h2 => by rw [h2] at he; simp at he
      have hslice : u.take t ≠ [] := by
        cases hu : u with
        | nil => exact absurd hu hune
        | cons x xs =>
          cases t with
          | zero => omega
          | succ t2 => simp [hu]
      have hfalse : ¬ ∃ r ∈ data, r.p = pp ∧
          r ∈ rangeRows data ((u.take t).min?.getD 0) ((u.take t).max?.getD 0) := by
        rintro ⟨r, hr, hrp, hrin⟩
        obtain ⟨_, h1, h2⟩ := mem_rangeRows.mp hrin
        have := hlt _ ((List.take_sublist t u).mem (minD_spec hslice).1)
        omega
      simp only [decide_eq_false hfalse, Bool.false_eq_true, if_false,
        Nat.add_zero]
      rw [ih (fun y hy => hlt y ((List.drop_sublist t u).mem hy))]

/-- Exactly one emitted block holds records of each remaining unique
prime. -/
theorem mkBlocksFuel_hasP_one {data : List Rec} {t pp : Nat} (ht : 0 < t)
    (hpp : pp ∈ pCol data) :
    ∀ {fuel c u}, List.Sorted (· < ·) u → u.length ≤ fuel → pp ∈ u →
      (mkBlocksFuel data t fuel c u).countP
        (fun b => decide (∃ r ∈ data, r.p = pp ∧ r ∈ b.content)) = 1 := by
  intro fuel
  induction fuel with
  | zero =>
    intro c u hs hl hmem
    have : u = [] := List.length_eq_zero.mp (by omega)
    subst this
    simp at hmem
  | succ f ih =>
    intro c u hs hl hmem
    have hune : u ≠ [] := fun h2 => by rw [h2] at hmem; simp at hmem
    have he : u.isEmpty = false := by
      cases hu : u with
      | nil => exact absurd hu hune
      | cons x xs => rfl
    simp only [mkBlocksFuel, he, Bool.false_eq_true, if_false,
      List.countP_cons]
    have hslice : u.take t ≠ [] := by
      cases hu : u with
      | nil => exact absurd hu hune
      | cons x xs =>
        cases t with
        | zero => omega
        | succ t2 => simp [hu]
    obtain ⟨r, hr, hrp⟩ := List.mem_map.mp hpp
    by_cases hin : pp ∈ u.take t
    · have htrue : ∃ r2 ∈ data, r2.p = pp ∧
          r2 ∈ rangeRows data ((u.take t).min?.getD 0) ((u.take t).max?.getD 0) := by
        refine ⟨r, hr, hrp, mem_rangeRows.mpr ⟨hr, ?_, ?_⟩⟩
        · rw [hrp]; exact (minD_spec hslice).2 _ hin
        · rw [hrp]; exact (maxD_spec hslice).2 _ hin
      simp only [decide_eq_true htrue, if_true]
      rw [mkBlocksFuel_hasP_zero ht
        (fun y hy => sorted_take_lt_drop hs t hin hy)]
    · have hdrop : pp ∈ u.drop t := by
        have h2 : pp ∈ u.take t ++ u.drop t := by
          rw [List.take_append_drop]; exact hmem
        rcases List.mem_append.mp h2 with h3 | h3
        · exact absurd h3 hin
        · exact h3
      have hfalse : ¬ ∃ r2 ∈ data, r2.p = pp ∧
          r2 ∈ rangeRows data ((u.take t).min?.getD 0) ((u.take t).max?.getD 0) := by
        rintro ⟨r2, hr2, hrp2, hrin2⟩
        obtain ⟨_, h1, h2⟩ := mem_rangeRows.mp hrin2
        rw [hrp2] at h1 h2
        exact hin ((mem_take_iff_window hs hslice hmem).mp ⟨h1, h2⟩)
      simp only [decide_eq_false hfalse, Bool.false_eq_true, if_false,
        Nat.add_zero]
      rw [ih (List.Pairwise.sublist (List.drop_sublist t u) hs)
        (by rw [List.length_drop]; omega) hdrop]

end ClaimC9Machinery

section ClaimC9

theorem mkBlocks_hasP_zero {data : List Rec} {t c pp : Nat} {u : List Nat}
    (ht : 0 < t) (hlt : ∀ y ∈ u, pp < y) :
    (mkBlocks data t c u).countP
      (fun b => decide (∃ r ∈ data, r.p = pp ∧ r ∈ b.content)) = 0 :=
  mkBlocksFuel_hasP_zero ht hlt

theorem mkBlocks_hasP_one {data : List Rec} {t c pp : Nat} {u : List Nat}
    (ht : 0 < t) (hpp : pp ∈ pCol data) (hs : List.Sorted (· < ·) u)
    (hmem : pp ∈ u) :
    (mkBlocks data t c u).countP
      (fun b => decide (∃ r ∈ data, r.p = pp ∧ r ∈ b.content)) = 1 :=
  mkBlocksFuel_hasP_one ht hpp hs (le_refl _) hmem

/-- Chunk behaviour of a pass that emits the whole unique-prime list as new
blocks (no absorption into an existing last block). -/
theorem c9_branch_plain (D : List Rec) (t c : Nat) (ht : 0 < t) :
    ((mkBlocks D t c (uniqueSorted (pCol D))).map
        (fun b => uniqueSorted (pCol b.content)) =
      chunksOf t (uniqueSorted (pCol D))) ∧
    ∀ pp ∈ uniqueSorted (pCol D),
      (((mkBlocks D t c (uniqueSorted (pCol D))).map BlockFile.content).countP
        (fun rows => decide (∃ r ∈ D, r.p = pp ∧ r ∈ rows)) = 1) ∧
      ∀ rows ∈ (mkBlocks D t c (uniqueSorted (pCol D))).map BlockFile.content,
        (∃ r ∈ D, r.p = pp ∧ r ∈ rows) → ∀ r2 ∈ D, r2.p = pp → r2 ∈ rows := by
  have hsu := uniqueSorted_sorted_lt (pCol D)
  have hcar : ∀ x ∈ uniqueSorted (pCol D), x ∈ pCol D := fun x hx =>
    mem_uniqueSorted.mp hx
  refine ⟨?_, ?_⟩
  · exact mkBlocksFuel_chunks ht (le_refl _) hsu hcar
      (fun x hx hnx => absurd (mem_uniqueSorted.mpr hx) hnx)
  · intro pp hpp
    constructor
    · rw [List.countP_map]
      simp only [Function.comp_def]
      exact mkBlocks_hasP_one ht (hcar pp hpp) hsu hpp
    · intro rows hrows hex r2 hr2 hp2
      obtain ⟨b, hb, rfl⟩ := List.mem_map.mp hrows
      obtain ⟨mn, mx, hcontent⟩ := mkBlocks_mem hb
      rw [hcontent] at hex ⊢
      exact rangeRows_captures hex r2 hr2 hp2

/-- Chunk behaviour of a pass that first appends the rows of the first `k`
unique primes into the undersized last block and then emits the rest. -/
theorem c9_branch_absorb (D : List Rec) (t c k : Nat) (ht : 0 < t)
    (hk : 0 < k) :
    ((mkBlocks D t c ((uniqueSorted (pCol D)).drop k)).map
        (fun b => uniqueSorted (pCol b.content)) =
      chunksOf t ((uniqueSorted (pCol D)).drop k)) ∧
    ∀ pp ∈ uniqueSorted (pCol D),
      ((rangeRows D (((uniqueSorted (pCol D)).take k).min?.getD 0)
            (((uniqueSorted (pCol D)).take k).max?.getD 0) ::
          (mkBlocks D t c ((uniqueSorted (pCol D)).drop k)).map
            BlockFile.content).countP
        (fun rows => decide (∃ r ∈ D, r.p = pp ∧ r ∈ rows)) = 1) ∧
      ∀ rows ∈ (rangeRows D (((uniqueSorted (pCol D)).take k).min?.getD 0)
            (((uniqueSorted (pCol D)).take k).max?.getD 0) ::
          (mkBlocks D t c ((uniqueSorted (pCol D)).drop k)).map
            BlockFile.content),
        (∃ r ∈ D, r.p = pp ∧ r ∈ rows) → ∀ r2 ∈ D, r2.p = pp → r2 ∈ rows := by
  have hsu := uniqueSorted_sorted_lt (pCol D)
  have hcar : ∀ x ∈ uniqueSorted (pCol D), x ∈ pCol D := fun x hx =>
    mem_uniqueSorted.mp hx
  have hsd : List.Sorted (· < ·) ((uniqueSorted (pCol D)).drop k) :=
    List.Pairwise.sublist (List.drop_sublist k _) hsu
  have hcard : ∀ x ∈ (uniqueSorted (pCol D)).drop k, x ∈ pCol D := fun x hx =>
    hcar x ((List.drop_sublist k _).mem hx)
  have hsplit : ∀ x ∈ uniqueSorted (pCol D),
      x ∈ (uniqueSorted (pCol D)).take k ∨
        x ∈ (uniqueSorted (pCol D)).drop k := by
    intro x hx
    have h2 : x ∈ (uniqueSorted (pCol D)).take k ++
        (uniqueSorted (pCol D)).drop k := by
      rw [List.take_append_drop]; exact hx
    exact List.mem_append.mp h2
  have hlowd : ∀ x ∈ pCol D, x ∉ (uniqueSorted (pCol D)).drop k →
      ∀ y ∈ (uniqueSorted (pCol D)).drop k, x < y := by
    intro x hx hnx y hy
    rcases hsplit x (mem_uniqueSorted.mpr hx) with h3 | h3
    · exact sorted_take_lt_drop hsu k h3 hy
    · exact absurd h3 hnx
  refine ⟨mkBlocksFuel_chunks ht (le_refl _) hsd hcard hlowd, ?_⟩
  intro pp hpp
  have hap : (uniqueSorted (pCol D)).take k ≠ [] := by
    cases hu : uniqueSorted (pCol D) with
    | nil => rw [hu] at hpp; simp at hpp
    | cons x xs =>
      cases hk2 : k with
      | zero => omega
      | succ k2 => simp [hu]
  constructor
  · rw [List.countP_cons]
    rcases hsplit pp hpp with hin | hin
    · have htrue : ∃ r ∈ D, r.p = pp ∧ r ∈ rangeRows D
          (((uniqueSorted (pCol D)).take k).min?.getD 0)
          (((uniqueSorted (pCol D)).take k).max?.getD 0) := by
        obtain ⟨r, hr, hrp⟩ := List.mem_map.mp (hcar pp hpp)
        refine ⟨r, hr, hrp, mem_rangeRows.mpr ⟨hr, ?_, ?_⟩⟩
        · rw [hrp]; exact (minD_spec hap).2 _ hin
        · rw [hrp]; exact (maxD_spec hap).2 _ hin
      simp only [decide_eq_true htrue, if_true]
      rw [List.countP_map]
      simp only [Function.comp_def]
      rw [mkBlocks_hasP_zero ht
        (fun y hy => sorted_take_lt_drop hsu k hin hy)]
    · have hfalse : ¬ ∃ r ∈ D, r.p = pp ∧ r ∈ rangeRows D
          (((uniqueSorted (pCol D)).take k).min?.getD 0)
          (((uniqueSorted (pCol D)).take k).max?.getD 0) := by
        rintro ⟨r, hr, hrp, hrin⟩
        obtain ⟨_, h1, h2⟩ := mem_rangeRows.mp hrin
        rw [hrp] at h1 h2
        have htake := (mem_take_iff_window hsu hap hpp).mp ⟨h1, h2⟩
        exact absurd (sorted_take_lt_drop hsu k htake hin) (by omega)
      simp only [decide_eq_false hfalse, Bool.false_eq_true, if_false,
        Nat.add_zero]
      rw [List.countP_map]
      simp only [Function.comp_def]
      exact mkBlocks_hasP_one ht (hcar pp hpp) hsd hin
  · intro rows hrows hex r2 hr2 hp2
    rcases List.mem_cons.mp hrows with hrows | hrows
    · subst hrows
      exact rangeRows_captures hex r2 hr2 hp2
    · obtain ⟨b, hb, rfl⟩ := List.mem_map.mp hrows
      obtain ⟨mn, mx, hcontent⟩ := mkBlocks_mem hb
      rw [hcontent] at hex ⊢
      exact rangeRows_captures hex r2 hr2 hp2

/-- Claim C9 (confirmed): the chunking step partitions the remaining sorted
unique primes into consecutive chunks of at most `target` primes (the chunk
lists concatenate back to the remaining primes and the emitted blocks' prime
sets are exactly those chunks), and every unique prime of the working set
has its full record group emitted into exactly one output row group — the
appended rows of the rewritten last block or a single new block — never
split across two. -/
theorem c9_no_split (runs : List (List Rec)) (dir : List BlockFile)
    (target : Nat) (ht : 0 < target) :
    ((chunksOf target
        ((uniqueSorted (pCol (dedupKeys (sortByP runs.flatten)))).drop
          (integrateOut runs dir target).consumed)).flatten =
      (uniqueSorted (pCol (dedupKeys (sortByP runs.flatten)))).drop
        (integrateOut runs dir target).consumed ∧
      ∀ ch ∈ chunksOf target
        ((uniqueSorted (pCol (dedupKeys (sortByP runs.flatten)))).drop
          (integrateOut runs dir target).consumed),
        ch ≠ [] ∧ ch.length ≤ target) ∧
    ((integrateOut runs dir target).fresh.map
        (fun b => uniqueSorted (pCol b.content)) =
      chunksOf target
        ((uniqueSorted (pCol (dedupKeys (sortByP runs.flatten)))).drop
          (integrateOut runs dir target).consumed)) ∧
    (∀ pp ∈ uniqueSorted (pCol (dedupKeys (sortByP runs.flatten))),
      ((integrateOut runs dir target).emissions.countP
        (fun rows => decide (∃ r ∈ dedupKeys (sortByP runs.flatten),
          r.p = pp ∧ r ∈ rows)) = 1) ∧
      ∀ rows ∈ (integrateOut runs dir target).emissions,
        (∃ r ∈ dedupKeys (sortByP runs.flatten), r.p = pp ∧ r ∈ rows) →
        ∀ r2 ∈ dedupKeys (sortByP runs.flatten), r2.p = pp → r2 ∈ rows) := by
  refine ⟨⟨chunksOfFuel_flatten ht _ _ (le_refl _),
    fun ch hch => chunksOfFuel_mem ht hch⟩, ?_⟩
  by_cases h0 : runs.flatten.isEmpty
  · have hdata : runs.flatten = [] := List.isEmpty_iff.mp h0
    unfold integrateOut
    simp only [h0, if_true]
    constructor
    · simp [hdata, sortByP, dedupKeys, pCol, uniqueSorted, chunksOf,
        chunksOfFuel, mkBlocks_nil]
    · intro pp hpp
      rw [hdata] at hpp
      simp [sortByP, dedupKeys, pCol, uniqueSorted] at hpp
  · unfold integrateOut
    simp only [h0, Bool.false_eq_true, if_false]
    cases hlast : (sortByName dir).getLast? with
    | none =>
      dsimp only [IngestOut.emissions]
      simp only [List.nil_append]
      have hbr := c9_branch_plain (dedupKeys (sortByP runs.flatten)) target 0 ht
      exact ⟨by simpa using hbr.1, hbr.2⟩
    | some lb =>
      dsimp only
      by_cases h1 : uniqP lb < target
      · by_cases h2 : 0 < min (target - uniqP lb)
            (uniqueSorted (pCol (dedupKeys (sortByP runs.flatten)))).length
        · simp only [h1, if_true, h2]
          dsimp only [IngestOut.emissions]
          have hbr := c9_branch_absorb (dedupKeys (sortByP runs.flatten))
            target (sortByName dir).length
            (min (target - uniqP lb)
              (uniqueSorted (pCol (dedupKeys (sortByP runs.flatten)))).length)
            ht h2
          exact ⟨hbr.1, fun pp hpp =>
            ⟨by simpa using (hbr.2 pp hpp).1, by simpa using (hbr.2 pp hpp).2⟩⟩
        · exfalso
          have hne0 : runs.flatten ≠ [] := fun h3 => by
            rw [h3] at h0; simp at h0
          have : dedupKeys (sortByP runs.flatten) ≠ [] := by
            intro h3
            have := mem_dedupKeys.mpr
              (((sortByP_perm runs.flatten).mem_iff).mpr
                (List.exists_mem_of_ne_nil runs.flatten hne0).choose_spec)
            rw [h3] at this
            simp at this
          obtain ⟨r, hr⟩ := List.exists_mem_of_ne_nil _ this
          have hmem : r.p ∈ uniqueSorted (pCol (dedupKeys (sortByP runs.flatten))) :=
            mem_uniqueSorted.mpr (List.mem_map.mpr ⟨r, hr, rfl⟩)
          exact h2 (lt_min_iff.mpr ⟨by omega, List.length_pos_of_mem hmem⟩)
      · simp only [h1, Bool.false_eq_true, if_false]
        dsimp only [IngestOut.emissions]
        simp only [List.nil_append]
        have hbr := c9_branch_plain (dedupKeys (sortByP runs.flatten)) target
          (sortByName dir).length ht
        exact ⟨by simpa using hbr.1, hbr.2⟩

/-- Witness for C9: evaluating the chunk correspondence of a concrete pass
(three primes at target two, empty store). -/
theorem c9_witness :
    (integrateOut [[mkRec 2, mkRec 3, mkRec 5]] [] 2).fresh.map
        (fun b => uniqueSorted (pCol b.content)) =
      chunksOf 2
        ((uniqueSorted (pCol (dedupKeys (sortByP
            [[mkRec 2, mkRec 3, mkRec 5]].flatten)))).drop
          (integrateOut [[mkRec 2, mkRec 3, mkRec 5]] [] 2).consumed) :=
  (c9_no_split [[mkRec 2, mkRec 3, mkRec 5]] [] 2 (by decide)).2.1

end ClaimC9

section ClaimC6

/-- Successive elements of the view are strictly increasing. -/
theorem viewAt_strict {dir : List BlockFile} {i j : Nat} (hij : i < j)
    (hj : j < (blockView dir).length) : viewAt dir i < viewAt dir j := by
  have hi : i < (blockView dir).length := lt_trans hij hj
  unfold viewAt
  rw [List.getD_eq_getElem?_getD, List.getD_eq_getElem?_getD,
    List.getElem?_eq_getElem hi, List.getElem?_eq_getElem hj]
  exact List.Sorted.rel_get_of_lt (uniqueSorted_sorted_lt _) hij

theorem viewAt_mem {dir : List BlockFile} {i : Nat}
    (hi : i < (blockView dir).length) : viewAt dir i ∈ blockView dir := by
  unfold viewAt
  rw [List.getD_eq_getElem?_getD, List.getElem?_eq_getElem hi]
  exact List.getElem_mem hi

/-- Dominance: a strictly increasing sequence of primes is pointwise at
least the canonical enumeration. -/
theorem viewAt_dominates {dir : List BlockFile}
    (hp : ∀ x ∈ blockView dir, isPrime x = true) :
    ∀ i, i < (blockView dir).length → unrank i ≤ viewAt dir i := by
  intro i
  induction i with
  | zero =>
    intro hi
    exact (isPrime_iff.mp (hp _ (viewAt_mem hi))).two_le
  | succ j ih =>
    intro hi
    simp only [Nat.succ_eq_add_one] at *
    have hj : j < (blockView dir).length := by omega
    have hmono := viewAt_strict (Nat.lt_succ_self j) hi
    have hprime : Nat.Prime (viewAt dir (j + 1)) :=
      isPrime_iff.mp (hp _ (viewAt_mem hi))
    simp only [Nat.succ_eq_add_one] at hmono
    exact unrank_succ_le hprime (by have := ih hj; omega)

/-- Once the view exceeds the enumeration it stays strictly above it. -/
theorem viewAt_gap_persists {dir : List BlockFile}
    (hp : ∀ x ∈ blockView dir, isPrime x = true) {i : Nat}
    (hgap : unrank i < viewAt dir i) :
    ∀ j, i ≤ j → j < (blockView dir).length → unrank j < viewAt dir j := by
  intro j
  induction j with
  | zero =>
    intro hij hj
    have : i = 0 := by omega
    subst this
    exact hgap
  | succ m ih =>
    intro hij hm
    simp only [Nat.succ_eq_add_one] at *
    rcases Nat.eq_or_lt_of_le hij with h | h
    · rw [← h]; exact hgap
    · have hmlt : m < (blockView dir).length := by omega
      have hrec := ih (by omega) hmlt
      have hprime : Nat.Prime (viewAt dir m) :=
        isPrime_iff.mp (hp _ (viewAt_mem hmlt))
      have hstep : unrank (m + 1) ≤ viewAt dir m := unrank_succ_le hprime hrec
      have hmono := viewAt_strict (Nat.lt_succ_self m) hm
      simp only [Nat.succ_eq_add_one] at hmono
      omega

/-- Matches with the canonical enumeration form a downward-closed set of
indices. -/
theorem viewAt_match_closed {dir : List BlockFile}
    (hp : ∀ x ∈ blockView dir, isPrime x = true) :
    ∀ i j, j ≤ i → i < (blockView dir).length →
      viewAt dir i = unrank i → viewAt dir j = unrank j := by
  intro i j hji hi heq
  by_contra hne
  have hj : j < (blockView dir).length := by omega
  have hdom := viewAt_dominates hp j hj
  have hgap : unrank j < viewAt dir j := by omega
  have := viewAt_gap_persists hp hgap i hji hi
  omega

/-- The invariant of the first-mismatch binary search: starting from a
window whose left part is all matches, it lands on the least mismatch of
the window, or on the right edge when the window has none. -/
theorem bisectFuel_spec (dir : List BlockFile)
    (hdc : ∀ i j, j ≤ i → i < (blockView dir).length →
      viewAt dir i = unrank i → viewAt dir j = unrank j) :
    ∀ fuel lo hi, hi - lo < fuel → lo ≤ hi →
      hi < (blockView dir).length →
      (∀ j < lo, viewAt dir j = unrank j) →
      lo ≤ bisectFuel (viewAt dir) fuel lo hi ∧
      bisectFuel (viewAt dir) fuel lo hi ≤ hi ∧
      (∀ j < bisectFuel (viewAt dir) fuel lo hi, viewAt dir j = unrank j) ∧
      (bisectFuel (viewAt dir) fuel lo hi < hi →
        viewAt dir (bisectFuel (viewAt dir) fuel lo hi) ≠
          unrank (bisectFuel (viewAt dir) fuel lo hi)) := by
  intro fuel
  induction fuel with
  | zero =>
    intro lo hi hfuel
    exact absurd hfuel (by omega)
  | succ f ih =>
    intro lo hi hfuel hlohi hhi hpre
    by_cases hlt : lo < hi
    · simp only [bisectFuel, hlt, if_true]
      by_cases hmid : viewAt dir ((lo + hi) / 2) = unrank ((lo + hi) / 2)
      · simp only [hmid, if_true]
        have hrange : lo ≤ (lo + hi) / 2 ∧ (lo + hi) / 2 < hi := by omega
        have hpre2 : ∀ j < (lo + hi) / 2 + 1, viewAt dir j = unrank j := by
          intro j hj
          by_cases hjlo : j < lo
          · exact hpre j hjlo
          · exact hdc ((lo + hi) / 2) j (by omega) (by omega) hmid
        obtain ⟨r1, r2, r3, r4⟩ := ih ((lo + hi) / 2 + 1) hi (by omega)
          (by omega) hhi hpre2
        exact ⟨by omega, r2, r3, r4⟩
      · simp only [hmid, if_false]
        have hrange : lo ≤ (lo + hi) / 2 ∧ (lo + hi) / 2 < hi := by omega
        obtain ⟨r1, r2, r3, r4⟩ := ih lo ((lo + hi) / 2) (by omega)
          (by omega) (by omega) hpre
        refine ⟨r1, by omega, r3, fun hlt2 => ?_⟩
        rcases Nat.eq_or_lt_of_le r2 with h | h
        · rw [h]; exact hmid
        · exact r4 h
    · simp only [bisectFuel, hlt, if_false]
      exact ⟨le_refl lo, by omega, hpre, fun h => h.elim⟩

/-- The linear scan finds nothing exactly when nothing is there. -/
theorem firstIdxAux_eq_none {p : Nat → Bool} :
    ∀ {n i}, firstIdxAux p n i = none ↔ ∀ j, i ≤ j → j < i + n → p j = false := by
  intro n
  induction n with
  | zero => intro i; simp [firstIdxAux]; omega
  | succ m ih =>
    intro i
    by_cases hpi : p i
    · simp only [firstIdxAux, hpi, if_true]
      constructor
      · intro h; exact absurd h (by simp)
      · intro h
        have := h i (le_refl i) (by omega)
        rw [hpi] at this
        exact absurd this (by simp)
    · simp only [firstIdxAux, hpi, Bool.false_eq_true, if_false]
      rw [ih]
      constructor
      · intro h j h1 h2
        rcases Nat.eq_or_lt_of_le h1 with h3 | h3
        · rw [← h3]; exact Bool.eq_false_iff.mpr hpi
        · exact h j h3 (by omega)
      · intro h j h1 h2
        exact h j (by omega) (by omega)

/-- The linear scan returns exactly the least index satisfying the
predicate. -/
theorem firstIdxAux_eq_some {p : Nat → Bool} :
    ∀ {n i k}, firstIdxAux p n i = some k ↔
      (i ≤ k ∧ k < i + n ∧ p k = true ∧ ∀ j, i ≤ j → j < k → p j = false) := by
  intro n
  induction n with
  | zero => intro i k; simp [firstIdxAux]; omega
  | succ m ih =>
    intro i k
    by_cases hpi : p i
    · simp only [firstIdxAux, hpi, if_true]
      constructor
      · rintro h
        have hk : k = i := by
          have := Option.some_inj.mp h
          omega
        subst hk
        exact ⟨le_refl k, by omega, hpi, fun j h1 h2 => by omega⟩
      · rintro ⟨h1, h2, h3, h4⟩
        have hk : k = i := by
          by_contra hne
          have := h4 i (le_refl i) (by omega)
          rw [hpi] at this
          exact absurd this (by simp)
        rw [hk]
    · simp only [firstIdxAux, hpi, Bool.false_eq_true, if_false]
      rw [ih]
      constructor
      · rintro ⟨h1, h2, h3, h4⟩
        refine ⟨by omega, by omega, h3, fun j hj1 hj2 => ?_⟩
        rcases Nat.eq_or_lt_of_le hj1 with h5 | h5
        · rw [← h5]; exact Bool.eq_false_iff.mpr hpi
        · exact h4 j h5 hj2
      · rintro ⟨h1, h2, h3, h4⟩
        have hik : i ≠ k := by
          intro h5
          rw [← h5] at h3
          exact hpi h3
        exact ⟨by omega, by omega, h3, fun j hj1 hj2 => h4 j (by omega) hj2⟩

/-- Claim C6 (confirmed): on a non-empty view that is a strictly increasing
sequence of primes, the binary-search audit returns exactly the smallest
index where the view diverges from the canonical enumeration, and returns
no finding exactly when the view matches the enumeration at every index. -/
theorem c6_first_divergence (dir : List BlockFile)
    (hne : blockView dir ≠ [])
    (hp : ∀ x ∈ blockView dir, isPrime x = true) :
    auditFirstMismatch dir = specFirstDivergence dir := by
  have htot : 0 < (blockView dir).length := List.length_pos.mpr hne
  have hdc := viewAt_match_closed hp
  unfold auditFirstMismatch specFirstDivergence
  simp only [Nat.pos_iff_ne_zero.mp htot, if_false]
  by_cases hv0 : viewAt dir 0 ≠ unrank 0
  · rw [if_pos hv0]
    have hspec : firstIdxAux
        (fun i => decide (viewAt dir i ≠ unrank i)) (blockView dir).length 0 =
        some 0 :=
      firstIdxAux_eq_some.mpr ⟨le_refl 0, by omega, decide_eq_true hv0,
        fun j h1 h2 => by omega⟩
    rw [hspec]
    rfl
  · rw [if_neg hv0]
    have hv0eq : viewAt dir 0 = unrank 0 := not_not.mp hv0
    obtain ⟨r1, r2, r3, r4⟩ := bisectFuel_spec dir hdc (blockView dir).length
      0 ((blockView dir).length - 1) (by omega) (by omega) (by omega)
      (fun j hj => by omega)
    by_cases hres : viewAt dir (bisectFuel (viewAt dir) (blockView dir).length
        0 ((blockView dir).length - 1)) =
        unrank (bisectFuel (viewAt dir) (blockView dir).length 0
          ((blockView dir).length - 1))
    · rw [if_neg (not_not.mpr hres)]
      have hall : ∀ j < (blockView dir).length, viewAt dir j = unrank j := by
        intro j hj
        have hedge : bisectFuel (viewAt dir) (blockView dir).length 0
            ((blockView dir).length - 1) = (blockView dir).length - 1 := by
          by_contra hne2
          exact (r4 (by omega)) hres
        by_cases hjr : j < bisectFuel (viewAt dir) (blockView dir).length 0
            ((blockView dir).length - 1)
        · exact r3 j hjr
        · have : j = (blockView dir).length - 1 := by omega
          rw [this, ← hedge]
          exact hres
      have hspec : firstIdxAux
          (fun i => decide (viewAt dir i ≠ unrank i)) (blockView dir).length 0 =
          none :=
        firstIdxAux_eq_none.mpr fun j h1 h2 =>
          decide_eq_false (not_not.mpr (hall j (by omega)))
      rw [hspec]
      rfl
    · rw [if_pos hres]
      have hspec : firstIdxAux
          (fun i => decide (viewAt dir i ≠ unrank i)) (blockView dir).length 0 =
          some (bisectFuel (viewAt dir) (blockView dir).length 0
            ((blockView dir).length - 1)) :=
        firstIdxAux_eq_some.mpr ⟨by omega, by omega, decide_eq_true hres,
          fun j h1 h2 => decide_eq_false (not_not.mpr (r3 j h2))⟩
      rw [hspec]
      rfl

/-- A store whose view `[2, 3, 7]` diverges from the enumeration at index
2. -/
def gapDir : List BlockFile := [⟨blockName 1 7, [mkRec 2, mkRec 3, mkRec 7]⟩]

/-- Witness for C6: the audit equals the linear-scan specification on a
concrete store with a gap, with the primality and non-emptiness hypotheses
evaluated. -/
theorem c6_witness :
    auditFirstMismatch gapDir = specFirstDivergence gapDir ∧
      auditFirstMismatch gapDir = some (2, 7, 5) :=
  ⟨c6_first_divergence gapDir (by decide) (by decide), by decide⟩

end ClaimC6

section ClaimC7

theorem maxP_isSome {b : BlockFile} (h : b.content ≠ []) :
    ∃ mx, maxP b = some mx := by
  apply natMax?_isSome
  unfold pCol
  simp [h]

theorem minP_isSome {b : BlockFile} (h : b.content ≠ []) :
    ∃ mn, minP b = some mn := by
  apply natMin?_isSome
  unfold pCol
  simp [h]

theorem uniqP_pos {b : BlockFile} (h : b.content ≠ []) : 0 < uniqP b := by
  unfold uniqP nUniqueP
  apply List.length_pos.mpr
  intro h2
  have h3 : pCol b.content = [] := by
    by_contra h4
    obtain ⟨x, hx⟩ := List.exists_mem_of_ne_nil _ h4
    have := List.mem_dedup.mpr hx
    rw [h2] at this
    simp at this
  unfold pCol at h3
  exact h (List.map_eq_nil_iff.mp h3)

/-- Modelled from the spec: per block in content order, with `C` the
cumulative unique-prime count through the block, a mismatch finding exactly
when `unrank(C - 1)` differs from the block's content max prime. -/
def specMismatchList (c0 : Nat) : List BlockFile →
    List (List Char × Nat × Nat × Nat)
  | [] => []
  | b :: bs =>
    (match maxP b with
      | some mx =>
        if unrank (c0 + uniqP b - 1) ≠ mx then
          [(b.name, mx, unrank (c0 + uniqP b - 1), c0 + uniqP b)]
        else []
      | none => []) ++ specMismatchList (c0 + uniqP b) bs

/-- Modelled from the spec: a boundary violation between adjacent blocks
exactly when the later block's min prime differs from `next_prime` of the
earlier block's max prime (flagging gaps and overlaps alike). -/
def specGapPairs (infos : List BlockFile) : List (Nat × Nat × Nat) :=
  (infos.zip infos.tail).filterMap (fun pr =>
    match maxP pr.1, minP pr.2 with
    | some pm, some mn =>
      if mn ≠ next_prime pm then some (pm, mn, next_prime pm) else none
    | _, _ => none)

/-- Gap findings relative to a carried-in previous maximum. -/
def specGapsAux : Option Nat → List BlockFile → List (Nat × Nat × Nat)
  | _, [] => []
  | pm0, b :: bs =>
    (match pm0, minP b with
      | some pm, some mn =>
        if mn ≠ next_prime pm then [(pm, mn, next_prime pm)] else []
      | _, _ => []) ++
      specGapsAux (match maxP b with | some mx => some mx | none => pm0) bs

theorem prefixStep_cum (acc : PrefixAcc) (b : BlockFile) :
    (prefixStep acc b).cum = acc.cum + uniqP b := rfl

theorem specMismatchList_cons (c0 : Nat) (b : BlockFile) (bs : List BlockFile) :
    specMismatchList c0 (b :: bs) =
      (match maxP b with
        | some mx =>
          if unrank (c0 + uniqP b - 1) ≠ mx then
            [(b.name, mx, unrank (c0 + uniqP b - 1), c0 + uniqP b)]
          else []
        | none => []) ++ specMismatchList (c0 + uniqP b) bs := rfl

theorem specGapsAux_cons (pm0 : Option Nat) (b : BlockFile)
    (bs : List BlockFile) :
    specGapsAux pm0 (b :: bs) =
      (match pm0, minP b with
        | some pm, some mn =>
          if mn ≠ next_prime pm then [(pm, mn, next_prime pm)] else []
        | _, _ => []) ++
        specGapsAux (match maxP b with | some mx => some mx | none => pm0) bs := by
  cases pm0 <;> rfl

/-- The prefix-check fold appends exactly the spec findings to whatever the
accumulator already holds. -/
theorem prefixFold_spec :
    ∀ (l : List BlockFile), (∀ b ∈ l, b.content ≠ []) → ∀ acc : PrefixAcc,
      (l.foldl prefixStep acc).mismatches =
        acc.mismatches ++ specMismatchList acc.cum l ∧
      (l.foldl prefixStep acc).gaps = acc.gaps ++ specGapsAux acc.prevMax l := by
  intro l
  induction l with
  | nil => intro h acc; simp [specMismatchList, specGapsAux]
  | cons b bs ih =>
    intro h acc
    have hb := h b (by simp)
    obtain ⟨mx, hmx⟩ := maxP_isSome hb
    have hupos : 0 < uniqP b := uniqP_pos hb
    rw [List.foldl_cons]
    obtain ⟨ih1, ih2⟩ := ih (fun b2 hb2 => h b2 (by simp [hb2]))
      (prefixStep acc b)
    constructor
    · rw [ih1, prefixStep_cum]
      have hstep : (prefixStep acc b).mismatches =
          acc.mismatches ++ (match maxP b with
            | some mx2 =>
              if unrank (acc.cum + uniqP b - 1) ≠ mx2 then
                [(b.name, mx2, unrank (acc.cum + uniqP b - 1),
                  acc.cum + uniqP b)]
              else []
            | none => []) := by
        unfold prefixStep
        rw [hmx]
        simp only [Nat.add_pos_right acc.cum hupos, if_pos]
        by_cases hcond : unrank (acc.cum + uniqP b - 1) ≠ mx
        · simp [hcond]
        · simp [hcond]
      rw [hstep, specMismatchList_cons, List.append_assoc]
    · rw [ih2]
      have hpm : (prefixStep acc b).prevMax =
          (match maxP b with | some mx2 => some mx2 | none => acc.prevMax) := by
        unfold prefixStep
        rfl
      have hstep : (prefixStep acc b).gaps =
          acc.gaps ++ (match acc.prevMax, minP b with
            | some pm, some mn =>
              if mn ≠ next_prime pm then [(pm, mn, next_prime pm)] else []
            | _, _ => []) := by
        unfold prefixStep
        cases hpm0 : acc.prevMax with
        | none => simp
        | some pm =>
          cases hmn : minP b with
          | none => simp
          | some mn =>
            by_cases hcond : mn ≠ next_prime pm
            · simp [hcond]
            · simp [hcond]
      rw [hstep, hpm, specGapsAux_cons, List.append_assoc]

/-- With every block non-empty, the carried-previous-maximum recursion is
the adjacent-pairs reading of the boundary check. -/
theorem specGapsAux_pairs :
    ∀ (l : List BlockFile), (∀ b ∈ l, b.content ≠ []) → ∀ pm0 : Option Nat,
      specGapsAux pm0 l =
        (match pm0, l with
          | some pm, b2 :: _ =>
            (match minP b2 with
              | some mn =>
                if mn ≠ next_prime pm then [(pm, mn, next_prime pm)] else []
              | none => [])
          | _, _ => []) ++ specGapPairs l := by
  intro l
  induction l with
  | nil =>
    intro h pm0
    cases pm0 <;> rfl
  | cons b bs ih =>
    intro h pm0
    have hb := h b (by simp)
    obtain ⟨mx, hmx⟩ := maxP_isSome hb
    have hrec := ih (fun b2 hb2 => h b2 (by simp [hb2])) (some mx)
    rw [specGapsAux_cons, hmx, hrec]
    have hhead : (match pm0, minP b with
        | some pm, some mn =>
          if mn ≠ next_prime pm then [(pm, mn, next_prime pm)] else []
        | _, _ => []) =
        (match pm0, b :: bs with
          | some pm, b2 :: _ =>
            (match minP b2 with
              | some mn =>
                if mn ≠ next_prime pm then [(pm, mn, next_prime pm)] else []
              | none => [])
          | _, _ => []) := by
      cases pm0 with
      | none => rfl
      | some pm => cases hmn : minP b <;> simp [hmn]
    rw [hhead]
    congr 1
    cases hbs : bs with
    | nil => rfl
    | cons c cs =>
      have hc := h c (by simp [hbs])
      obtain ⟨mnc, hmnc⟩ := minP_isSome hc
      have hps : specGapPairs (b :: c :: cs) =
          (match minP c with
            | some mn =>
              if mn ≠ next_prime mx then [(mx, mn, next_prime mx)] else []
            | none => []) ++ specGapPairs (c :: cs) := by
        unfold specGapPairs
        simp only [List.zip_cons_cons, List.tail_cons, List.filterMap_cons]
        rw [hmx, hmnc]
        by_cases hcond : mnc ≠ next_prime mx
        · simp [hcond]
        · simp [hcond]
      rw [hps]

/-- Claim C7 (confirmed): over the content-ordered catalog with non-empty
blocks, the prefix check reports a mismatch for block i exactly when
`unrank(C - 1)` (C the cumulative unique-prime count through block i)
differs from the block's content max prime, and reports a boundary
violation between blocks i and i+1 exactly when block i+1's min prime
differs from `next_prime` of block i's max prime. -/
theorem c7_prefix_check (dir : List BlockFile)
    (h : ∀ b ∈ dir, b.content ≠ []) :
    (prefixCheck dir).mismatches = specMismatchList 0 (sortedByData dir) ∧
    (prefixCheck dir).gaps = specGapPairs (sortedByData dir) := by
  have h2 : ∀ b ∈ sortedByData dir, b.content ≠ [] := fun b hb =>
    h b (((List.perm_insertionSort dataLe dir).mem_iff).mp hb)
  obtain ⟨h3, h4⟩ := prefixFold_spec (sortedByData dir) h2 ⟨0, none, [], []⟩
  refine ⟨by simpa using h3, ?_⟩
  rw [prefixCheck, h4, specGapsAux_pairs (sortedByData dir) h2 none]
  cases hs : sortedByData dir <;> simp

/-- A two-block store with a genuine gap and a genuine prefix mismatch. -/
def gappyDir : List BlockFile :=
  [⟨blockName 1 3, [mkRec 2, mkRec 3]⟩, ⟨blockName 2 11, [mkRec 7, mkRec 11]⟩]

/-- Witness for C7: the fold equals the spec findings on a concrete store
(where it flags both a mismatch and a boundary violation); the non-empty
hypothesis is evaluated. -/
theorem c7_witness :
    ((prefixCheck gappyDir).mismatches =
        specMismatchList 0 (sortedByData gappyDir) ∧
      (prefixCheck gappyDir).gaps = specGapPairs (sortedByData gappyDir)) ∧
      (prefixCheck gappyDir).gaps = [(3, 7, 5)] :=
  ⟨c7_prefix_check gappyDir (by decide), by decide⟩

end ClaimC7

section ClaimC4

/-- From the spec's words: the content-last block — the last block in the
content (min, max) order the Catalog uses, i.e. the block whose content
covers the greatest primes. -/
def contentLast (dir : List BlockFile) : Option BlockFile :=
  (sortedByData dir).getLast?

/-- Filename-first block whose content covers the largest primes. -/
def c4blockA : BlockFile := ⟨blockName 1 103, [mkRec 101, mkRec 103]⟩

/-- Filename-last block whose content covers the smallest primes. -/
def c4blockB : BlockFile := ⟨blockName 2 3, [mkRec 2, mkRec 3]⟩

/-- A store whose file-name order disagrees with its content order. -/
def c4dir : List BlockFile := [c4blockA, c4blockB]

/-- Claim C4, as stated: the block chosen for absorption is the content-last
block, the one with the greatest content-derived max prime.  False: on
`c4dir` the content-last block is `c4blockA`, which is undersized (2 < 5
unique primes) and so should be pulled in and replaced, yet ingestion
leaves it untouched and instead absorbs the *filename-last* block
`c4blockB`, replacing it with a block holding `c4blockB`'s rows plus the
new row. -/
theorem c4_counterexample :
    contentLast c4dir = some c4blockA ∧
    uniqP c4blockA < 5 ∧
    (integrateOut [[mkRec 5]] c4dir 5).rewrote =
      some ⟨blockName 2 5, [mkRec 2, mkRec 3, mkRec 5]⟩ ∧
    integrate [[mkRec 5]] c4dir 5 =
      [c4blockA, ⟨blockName 2 5, [mkRec 2, mkRec 3, mkRec 5]⟩] := by
  decide

/-- Claim C4 (corrected): the block chosen for absorption is the
*filename-last* block — the last block in sorted file-name order — not the
content-last one.  With a non-empty working set: if the filename-last block
has spare unique-prime capacity and at least one new prime arrives, it is
pulled into the working set and replaced by a block carrying its old rows
plus the appended rows; if it is at or above capacity, no block is
rewritten, new blocks are only added, and the filename-last block survives
untouched whenever no new block reuses its path. -/
theorem c4_filename_last (runs : List (List Rec)) (dir : List BlockFile)
    (target : Nat) (lb : BlockFile)
    (hne : runs.flatten ≠ [])
    (hlb : (sortByName dir).getLast? = some lb) :
    (uniqP lb < target →
      0 < min (target - uniqP lb)
        (uniqueSorted (pCol (dedupKeys (sortByP runs.flatten)))).length →
      ∃ nl, (integrateOut runs dir target).rewrote = some nl ∧
        nl.content =
          sortByP (lb.content ++ (integrateOut runs dir target).appended) ∧
        (integrateOut runs dir target).dirAfter =
          writeAll (sortByName dir).dropLast
            (nl :: (integrateOut runs dir target).fresh) ∧
        nl ∈ (integrateOut runs dir target).dirAfter) ∧
    (target ≤ uniqP lb →
      (integrateOut runs dir target).rewrote = none ∧
      (integrateOut runs dir target).dirAfter =
        writeAll (sortByName dir) (integrateOut runs dir target).fresh ∧
      (lb.name ∉ (integrateOut runs dir target).fresh.map BlockFile.name →
        lb ∈ (integrateOut runs dir target).dirAfter)) := by
  have h0 : runs.flatten.isEmpty = false := by
    cases hflat : runs.flatten with
    | nil => exact absurd hflat hne
    | cons a l => rfl
  constructor
  · intro h1 h2
    unfold integrateOut
    simp only [h0, Bool.false_eq_true, if_false]
    rw [hlb]
    simp only [h1, if_true, h2]
    refine ⟨_, rfl, rfl, rfl, ?_⟩
    rw [writeAll_eq _ _ (written_names_nodup _ _ _ _ _ _)]
    exact List.mem_append_right _ (List.mem_cons_self _ _)
  · intro hge
    have h1 : ¬ uniqP lb < target := Nat.not_lt.mpr hge
    unfold integrateOut
    simp only [h0, Bool.false_eq_true, if_false]
    rw [hlb]
    simp only [h1, if_false]
    refine ⟨trivial, trivial, ?_⟩
    intro hname
    rw [writeAll_eq _ _ mkBlocks_names_nodup]
    refine List.mem_append_left _ (List.mem_filter.mpr ⟨?_, ?_⟩)
    · obtain ⟨l', hl'⟩ := List.getLast?_eq_some_iff.mp hlb
      rw [hl']
      exact List.mem_append_right _ (List.mem_cons_self _ _)
    · exact decide_eq_true hname

/-- A one-block store whose single block is both filename-last and
undersized. -/
def c4wBlock : BlockFile := ⟨blockName 1 3, [mkRec 2, mkRec 3]⟩

/-- The store holding only `c4wBlock`. -/
def c4wDir : List BlockFile := [c4wBlock]

/-- Witness for C4: the absorb case of the corrected statement evaluated on
a concrete store, every hypothesis discharged by evaluation. -/
theorem c4_witness :
    ∃ nl, (integrateOut [[mkRec 5]] c4wDir 5).rewrote = some nl ∧
      nl.content =
        sortByP (c4wBlock.content ++
          (integrateOut [[mkRec 5]] c4wDir 5).appended) ∧
      (integrateOut [[mkRec 5]] c4wDir 5).dirAfter =
        writeAll (sortByName c4wDir).dropLast
          (nl :: (integrateOut [[mkRec 5]] c4wDir 5).fresh) ∧
      nl ∈ (integrateOut [[mkRec 5]] c4wDir 5).dirAfter :=
  (c4_filename_last [[mkRec 5]] c4wDir 5 c4wBlock (by decide)
    (by decide)).1 (by decide) (by decide)

end ClaimC4
